import Mathlib

/-!
# sqs: chain-freshness guard, pricing cache keys and the taker-fee repository

A shallow embedding of

* `chaininfo/usecase/chain_info_usecase.go` (`GetLatestHeight`),
* `domain/pricing.go` (`FormatPricingCacheKey`),
* `sqsdomain/repository/redis/router/redis_router_repository.go`
  (`GetAllTakerFees`, `GetTakerFee`, `SetTakerFee`),
* `sqsdomain/repository/tx.go` (`RedisTx`: `IsActive`, `Exec`, `GetPipeliner`, `ClearAll`),
* `router/usecase/pools/routable_cw_pool.go` (`CalculateTokenOutByTokenIn`),

followed by the properties established about them.

Conventions.  A `time.Time` is an integer count of nanoseconds since the zero
`Time`; a `time.Duration` is an integer count of nanoseconds kept inside the
`int64` range by saturation, as `Time.Sub` does; `Duration.Seconds` is computed
with the two `float64` roundings of the source.  A `uint64` height is a `Nat`
(heights are only compared and stored, never added).  A Go `string` is a list of
characters compared lexicographically.
-/

namespace Sqs

/-! ## Chain-freshness guard (`chaininfo/usecase/chain_info_usecase.go`) -/

/-- One second as a `time.Duration`, in nanoseconds. -/
def Second : Int := 1000000000

/-- Smallest `time.Duration`: `-1 << 63` nanoseconds. -/
def minDuration : Int := -9223372036854775808

/-- Largest `time.Duration`: `1<<63 - 1` nanoseconds. -/
def maxDuration : Int := 9223372036854775807

/-- Embeds `Time.Sub` on wall-clock readings (`UTC()` strips the monotonic reading):
the difference `t - u`, saturated to the range of a `Duration`. -/
def timeSub (t u : Int) : Int :=
  if t - u < minDuration then minDuration
  else if maxDuration < t - u then maxDuration
  else t - u

/-- Quotient `num / den` rounded to the nearest integer, a tie going to the even
one: the rounding of every `float64` operation. -/
def roundHalfEven (num den : Nat) : Nat :=
  let q := num / den
  let r := num % den
  if 2 * r < den then q
  else if den < 2 * r then q + 1
  else if q % 2 = 0 then q else q + 1

/-- Number of low bits of `n` that a `float64` significand of 53 bits cannot
hold: the least `s` with `n / 2 ^ s < 2 ^ 53`, for `n` below `2 ^ (53 + fuel)`. -/
def excessBits : Nat → Nat → Nat
  | 0, _ => 0
  | fuel + 1, n => if n < 2 ^ 53 then 0 else excessBits fuel (n / 2) + 1

/-- The `float64` nearest to the quotient `num / den`, for a quotient that is
zero, a whole number below `2 ^ 53`, or at least `2 ^ 52` (and below
`2 ^ 181`): the quotient is cut to 53 significant bits, rounding to nearest,
ties to even.  Scaling by a power of two commutes with `float64` rounding, so
the same function rounds any quantity counted in units of `2 ^ -82`. -/
def roundFloat64 (num den : Nat) : Nat :=
  let shift := excessBits 128 (num / den)
  roundHalfEven num (den * 2 ^ shift) * 2 ^ shift

/-- Magnitude of `int(d.Seconds())` for a duration of magnitude `n` nanoseconds:
`Seconds` is `float64(sec) + float64(nsec)/1e9` with `sec := d / Second` and
`nsec := d % Second`.  Both conversions are exact; the division and the sum
are each rounded to `float64`, here in units of `2 ^ -82` (the quotient
`nsec/1e9` is zero or at least `2 ^ -30`); the conversion to `int` drops the
fraction. -/
def secondsAbs (n : Nat) : Nat :=
  let sec := n / 1000000000
  let nsec := n % 1000000000
  let frac := roundFloat64 (nsec * 2 ^ 82) 1000000000
  let sum := roundFloat64 (sec * 2 ^ 82 + frac) 1
  sum / 2 ^ 82

/-- Embeds `int(d.Seconds())` for a duration `d` in the `int64` range.  Go's
`/` and `%` truncate toward zero and `float64` arithmetic is symmetric in the
sign, so a negative duration gives the negated result of its magnitude. -/
def durationSecs (d : Int) : Int :=
  if d < 0 then -(secondsAbs d.natAbs : Int) else (secondsAbs d.natAbs : Int)

/-- The max number of seconds allowed for there to be no updates. -/
def MaxAllowedHeightUpdateTimeDeltaSecs : Int := 30

/-- The error value `domain.StaleHeightError` built by `GetLatestHeight`. -/
structure StaleHeightError where
  StoredHeight : Nat
  TimeSinceLastUpdate : Int
  MaxAllowedTimeDeltaSecs : Int
  deriving DecidableEq, Repr

/-- The mutable fields of `chainInfoUseCase` guarded by `lastSeenMx`. -/
structure chainInfoUseCase where
  lastSeenUpdatedHeight : Nat
  lastSeenUpdatedTime : Int
  deriving DecidableEq, Repr

/-- Embeds `NewChainInfoUsecase`: both guarded fields start at their zero values. -/
def NewChainInfoUsecase : chainInfoUseCase :=
  { lastSeenUpdatedHeight := 0, lastSeenUpdatedTime := 0 }

/-- The pair `(uint64, error)` returned by `GetLatestHeight`; `err = none` is a
nil error. -/
structure HeightResult where
  height : Nat
  err : Option StaleHeightError
  deriving DecidableEq, Repr

/-- Embeds `chainInfoUseCase.GetLatestHeight`.  `latestHeight` is what
`chainInfoRepository.GetLatestHeight()` reported and `currentTimeUTC` is the
reading of `time.Now().UTC()`; the result is the returned pair together with
the guarded fields after the call. -/
def GetLatestHeight (p : chainInfoUseCase) (latestHeight : Nat) (currentTimeUTC : Int) :
    HeightResult × chainInfoUseCase :=
  -- Time since last height retrieval
  let timeDeltaSecs := durationSecs (timeSub currentTimeUTC p.lastSeenUpdatedTime)
  let isHeightUpdated := decide (latestHeight > p.lastSeenUpdatedHeight)
  -- Validate that it does not exceed the max allowed time delta
  if !isHeightUpdated && decide (timeDeltaSecs > MaxAllowedHeightUpdateTimeDeltaSecs) then
    ({ height := 0,
       err := some { StoredHeight := latestHeight,
                     TimeSinceLastUpdate := timeDeltaSecs,
                     MaxAllowedTimeDeltaSecs := MaxAllowedHeightUpdateTimeDeltaSecs } },
     p)
  else
    -- Update the last seen height and time
    ({ height := latestHeight, err := none },
     { lastSeenUpdatedHeight := latestHeight, lastSeenUpdatedTime := currentTimeUTC })

/-- Successive calls of `GetLatestHeight`, one per `(latestHeight, currentTimeUTC)`
pair, each starting from the fields the previous call left: the returned pairs
in call order and the final fields. -/
def GetLatestHeightSeq (p : chainInfoUseCase) :
    List (Nat × Int) → List HeightResult × chainInfoUseCase
  | [] => ([], p)
  | (latestHeight, now) :: rest =>
    let r := GetLatestHeight p latestHeight now
    let rs := GetLatestHeightSeq r.2 rest
    (r.1 :: rs.1, rs.2)

/-- The guarded fields after each call of a sequence of `GetLatestHeight` calls,
in call order. -/
def statesAfter (p : chainInfoUseCase) : List (Nat × Int) → List chainInfoUseCase
  | [] => []
  | (latestHeight, now) :: rest =>
    let q := (GetLatestHeight p latestHeight now).2
    q :: statesAfter q rest

/-- Every call of the sequence either observes a height that is not below the
recorded one at that moment, or is answered with the stale-height error. -/
def noAcceptedLowerHeight (p : chainInfoUseCase) : List (Nat × Int) → Prop
  | [] => True
  | (latestHeight, now) :: rest =>
    (p.lastSeenUpdatedHeight ≤ latestHeight ∨
        (GetLatestHeight p latestHeight now).1.err ≠ none) ∧
      noAcceptedLowerHeight (GetLatestHeight p latestHeight now).2 rest

/-! ## Pricing cache key (`domain/pricing.go`) -/

/-- A Go `string`, as the list of its characters.  The order `<` on it is the
lexicographic one, which is how Go compares strings. -/
abbrev GoString := List Char

/-- Embeds `FormatPricingCacheKey`, which formats the cache key for the given denoms: the two
are swapped when `a < b`, then written to the builder one after the other. -/
def FormatPricingCacheKey (a b : GoString) : GoString :=
  let a' := if a < b then b else a
  let b' := if a < b then a else b
  a' ++ b'

/-! ## Redis transactions (`sqsdomain/repository/tx.go`) and the store -/

/-- The content of one redis hash: its `(field, value)` entries. -/
abbrev Hash := List (GoString × GoString)

/-- The key-value store as far as the router repository uses it: every key
holds a hash (an absent key holds the empty hash). -/
abbrev Store := GoString → Hash

/-- Value of a field of a hash, if the field is present. -/
def hashGet (field : GoString) : Hash → Option GoString
  | [] => none
  | (f, v) :: rest => if f = field then some v else hashGet field rest

/-- Hash with `field` set to `value`: an existing entry is overwritten, a new
one is added otherwise. -/
def hashSet (field value : GoString) : Hash → Hash
  | [] => [(field, value)]
  | (f, v) :: rest =>
    if f = field then (field, value) :: rest else (f, v) :: hashSet field value rest

/-- The commands the router repository and the transaction stage on a pipeliner. -/
inductive Cmd where
  | HSet (key field value : GoString)
  | HGet (key field : GoString)
  | HGetAll (key : GoString)
  | FlushAll
  deriving DecidableEq, Repr

/-- What a command holds once the pipeline has been executed. -/
inductive Reply where
  | written
  | str (value : GoString)
  | nil
  | map (entries : Hash)
  | flushed
  deriving DecidableEq, Repr

/-- The errors of the router repository and of the transaction. -/
inductive RepoError where
  | noTxInProgress
  | redisNil
  | invalidDec (s : GoString)
  | invalidDenomPairCount (key : GoString) (had : Nat)
  | invalidDenomPairOrder (key : GoString)
  deriving DecidableEq, Repr

/-- A `redis.Pipeliner`: the commands staged so far, oldest first. -/
structure Pipeliner where
  queued : List Cmd
  deriving DecidableEq, Repr

/-- Effect of one command on the store, with the reply the command holds. -/
def execCmd (store : Store) : Cmd → Store × Reply
  | .HSet key field value =>
    (fun k => if k = key then hashSet field value (store k) else store k, .written)
  | .HGet key field =>
    (store, match hashGet field (store key) with
            | some v => .str v
            | none => .nil)
  | .HGetAll key => (store, .map (store key))
  | .FlushAll => (fun _ => [], .flushed)

/-- Effect of the staged commands, in order, on the store, with their replies. -/
def execCmds (store : Store) : List Cmd → Store × List Reply
  | [] => (store, [])
  | cmd :: rest =>
    let r := execCmd store cmd
    let rs := execCmds r.1 rest
    (rs.1, r.2 :: rs.2)

/-- The error `pipeliner.Exec` returns: that of the first command that failed
(a `HGet` of an absent field holds `redis.Nil`), nil when none did. -/
def firstError : List Reply → Option RepoError
  | [] => none
  | .nil :: _ => some .redisNil
  | _ :: rest => firstError rest

/-- Embeds `pipeliner.Exec(ctx)` against the store: the store afterwards, the replies of
the staged commands and the returned error.  Connection failures are outside
the model. -/
def Pipeliner.Exec (p : Pipeliner) (store : Store) : Store × List Reply × Option RepoError :=
  let r := execCmds store p.queued
  (r.1, r.2, firstError r.2)

/-- Embeds `RedisTx`, a redis transaction; `pipeliner = none` is the nil pipeliner. -/
structure RedisTx where
  pipeliner : Option Pipeliner
  deriving DecidableEq, Repr

/-- Embeds `NewRedisTx`: wraps the pipeliner. -/
def NewRedisTx (pipeliner : Pipeliner) : RedisTx := { pipeliner := some pipeliner }

/-- Embeds `RedisTx.IsActive implements Tx`: the pipeliner is not nil. -/
def RedisTx.IsActive (rt : RedisTx) : Bool := rt.pipeliner.isSome

/-- Embeds `RedisTx.GetPipeliner`: returns a redis pipeliner for the current transaction,
and an error if transaction is not in progress. -/
def RedisTx.GetPipeliner (rt : RedisTx) : Except RepoError Pipeliner :=
  if !rt.IsActive then .error .noTxInProgress
  else match rt.pipeliner with
    | some p => .ok p
    | none => .error .noTxInProgress

/-- Embeds `RedisTx.Exec implements Tx`: executes the pipeliner, sets it to nil and
returns the error of the execution, with the store afterwards.  The result is
`none` when the pipeliner is already nil: the method call on it does not return. -/
def RedisTx.Exec (rt : RedisTx) (store : Store) : Option (Option RepoError × RedisTx × Store) :=
  match rt.pipeliner with
  | none => none
  | some p =>
    let r := p.Exec store
    some (r.2.2, { pipeliner := none }, r.1)

/-- Embeds `RedisTx.ClearAll implements Tx`: stages `FlushAll` on the pipeliner; the
command holds no error before the execution, so nil is returned, and the store
is wiped when the transaction is executed.  The result is `none` when the
pipeliner is nil: the method call on it does not return. -/
def RedisTx.ClearAll (rt : RedisTx) : Option (Option RepoError × RedisTx) :=
  match rt.pipeliner with
  | none => none
  | some p => some (none, { pipeliner := some { queued := p.queued ++ [Cmd.FlushAll] } })

/-- Modelled from the spec: `TxManager.StartTx`, whose implementation is not among
the sources ("`StartTx` begins a session; the session supports staged commands
that are only executed on explicit execution"): a transaction in progress with
nothing staged. -/
def StartTx : RedisTx := NewRedisTx { queued := [] }

/-! ## Router repository
(`sqsdomain/repository/redis/router/redis_router_repository.go`) -/

/-- The separator of key components. -/
def keySeparator : GoString := ['~']

/-- Prefix of every router key. -/
def routerPrefix : GoString := ['r'] ++ keySeparator

/-- Key of the taker-fee hash. -/
def takerFeePrefix : GoString := routerPrefix ++ ['t', 'f'] ++ keySeparator

/-- Prefix of the routes keys. -/
def routesPrefix : GoString := routerPrefix ++ ['r'] ++ keySeparator

/-- Embeds `strings.Split(s, sep)` for a separator of one character: the pieces of `s`
between the occurrences of `sep`, one more piece than there are occurrences. -/
def stringsSplit (sep : Char) : GoString → List GoString
  | [] => [[]]
  | c :: cs =>
    if c = sep then [] :: stringsSplit sep cs
    else
      match stringsSplit sep cs with
      | [] => [[c]]
      | piece :: pieces => (c :: piece) :: pieces

/-- The two operations of `osmomath.Dec` the repository uses, `takerFee.String()`
and `osmomath.NewDecFromStr`; the type is a dependency outside the sources and
is taken as a parameter.  `NewDecFromStr` returning `none` is its error. -/
structure DecCodec (Dec : Type) where
  String : Dec → GoString
  NewDecFromStr : GoString → Option Dec

/-- A decimal type for evaluating the repository on concrete data: a decimal is
kept as its text, and a text is accepted when it is not empty and made of
digits and decimal points only. -/
def textDecCodec : DecCodec GoString where
  String := fun d => d
  NewDecFromStr := fun s =>
    if s ≠ [] ∧ s.all (fun ch => ch.isDigit || ch = '.') then some s else none

/-- Embeds `sqsdomain.DenomPair`, the key of the taker-fee map. -/
structure DenomPair where
  Denom0 : GoString
  Denom1 : GoString
  deriving DecidableEq, Repr

/-- Embeds `sqsdomain.TakerFeeMap`, a Go map from denom pairs to taker fees: its entries. -/
abbrev TakerFeeMap (Dec : Type) := List (DenomPair × Dec)

/-- Map assignment `m[k] = v`. -/
def TakerFeeMap.set {Dec : Type} (k : DenomPair) (v : Dec) : TakerFeeMap Dec → TakerFeeMap Dec
  | [] => [(k, v)]
  | (k', v') :: rest =>
    if k' = k then (k, v) :: rest else (k', v') :: TakerFeeMap.set k v rest

/-- The loop of `GetAllTakerFees` over the entries of the result map, in the order
they are visited, filling `takerFeeMap`. -/
def parseTakerFeeMap {Dec : Type} (c : DecCodec Dec) :
    Hash → TakerFeeMap Dec → Except RepoError (TakerFeeMap Dec)
  | [], takerFeeMap => .ok takerFeeMap
  | (denomPairStr, takerFeeStr) :: rest, takerFeeMap =>
    match c.NewDecFromStr takerFeeStr with
    | none => .error (.invalidDec takerFeeStr)
    | some takerFee =>
      let denoms := stringsSplit '~' denomPairStr
      match denoms with
      | [denoms0, denoms1] =>
        if denoms0 > denoms1 then .error (.invalidDenomPairOrder denomPairStr)
        else parseTakerFeeMap c rest
          (TakerFeeMap.set { Denom0 := denoms0, Denom1 := denoms1 } takerFee takerFeeMap)
      | _ => .error (.invalidDenomPairCount denomPairStr denoms.length)

/-- The three checks the loop of `GetAllTakerFees` makes on one entry, all passed:
the value is read by `NewDecFromStr`, the key splits into two components, and
the first is not greater than the second. -/
def entryAccepted {Dec : Type} (c : DecCodec Dec) (entry : GoString × GoString) : Prop :=
  (∃ takerFee, c.NewDecFromStr entry.2 = some takerFee) ∧
    ∃ denoms0 denoms1, stringsSplit '~' entry.1 = [denoms0, denoms1] ∧ ¬ denoms0 > denoms1

/-- Embeds `GetAllTakerFees implements mvc.RouterRepository`.  A Go map is ranged over
in an order the runtime chooses: `rangeOrder` is that choice, a rearrangement
of the entries of the result map. -/
def GetAllTakerFees {Dec : Type} (c : DecCodec Dec) (rangeOrder : Hash → Hash)
    (store : Store) : Except RepoError (TakerFeeMap Dec) :=
  let tx := StartTx
  match tx.GetPipeliner with
  | .error err => .error err
  | .ok pipeliner =>
    let pipeliner : Pipeliner := { queued := pipeliner.queued ++ [Cmd.HGetAll takerFeePrefix] }
    let executed := pipeliner.Exec store
    match executed.2.2 with
    | some err => .error err
    | none =>
      match executed.2.1.getLast? with
      | some (.map resultMap) => parseTakerFeeMap c (rangeOrder resultMap) []
      | _ => .error .redisNil

/-- Embeds `GetTakerFee implements mvc.RouterRepository`. -/
def GetTakerFee {Dec : Type} (c : DecCodec Dec) (store : Store) (denom0 denom1 : GoString) :
    Except RepoError Dec :=
  -- Ensure increasing lexicographic order.
  let d0 := if denom1 < denom0 then denom1 else denom0
  let d1 := if denom1 < denom0 then denom0 else denom1
  let tx := StartTx
  match tx.GetPipeliner with
  | .error err => .error err
  | .ok pipeliner =>
    let pipeliner : Pipeliner :=
      { queued := pipeliner.queued ++ [Cmd.HGet takerFeePrefix (d0 ++ keySeparator ++ d1)] }
    let executed := pipeliner.Exec store
    match executed.2.2 with
    | some err => .error err
    | none =>
      match executed.2.1.getLast? with
      | some (.str resultStr) =>
        match c.NewDecFromStr resultStr with
        | some fee => .ok fee
        | none => .error (.invalidDec resultStr)
      | _ => .error .redisNil

/-- Embeds `SetTakerFee`, which sets taker fee for a denom pair: the returned error (nil is
`none`) and the transaction with the command staged on its pipeliner. -/
def SetTakerFee {Dec : Type} (c : DecCodec Dec) (tx : RedisTx) (denom0 denom1 : GoString)
    (takerFee : Dec) : Option RepoError × RedisTx :=
  -- Ensure increasing lexicographic order.
  let d0 := if denom1 < denom0 then denom1 else denom0
  let d1 := if denom1 < denom0 then denom0 else denom1
  match tx.GetPipeliner with
  | .error err => (some err, tx)
  | .ok pipeliner =>
    (none,
     { pipeliner := some
        { queued := pipeliner.queued ++
            [Cmd.HSet takerFeePrefix (d0 ++ keySeparator ++ d1) (c.String takerFee)] } })

/-- Embeds `getRoutesPrefixByDenoms`: the key of the routes between two denoms. -/
def getRoutesPrefixByDenoms (denom0 denom1 : GoString) : GoString :=
  routesPrefix ++ denom0 ++ keySeparator ++ denom1

/-! ## Routable CosmWasm pool (`router/usecase/pools/routable_cw_pool.go`) -/

/-- An `sdk.Coin`: a denom and an amount. -/
structure Coin where
  Denom : GoString
  Amount : Int
  deriving DecidableEq, Repr

/-- The pool types of `poolmanagertypes.PoolType`, in the order of their numbers
0 to 3. -/
inductive PoolType where
  | Balancer
  | Stableswap
  | Concentrated
  | CosmWasm
  deriving DecidableEq, Repr

/-- The number of a pool type, as `int32(poolType)` gives it. -/
def PoolType.toInt32 : PoolType → Int
  | .Balancer => 0
  | .Stableswap => 1
  | .Concentrated => 2
  | .CosmWasm => 3

/-- The request `msg.NewCalcOutAmtGivenInRequest(tokenIn, tokenOutDenom, swapFee)`
builds. -/
structure CalcOutAmtGivenInRequest (Dec : Type) where
  TokenIn : Coin
  TokenOutDenom : GoString
  SwapFee : Dec
  deriving DecidableEq, Repr

/-- The response `msg.CalcOutAmtGivenInResponse` of the contract. -/
structure CalcOutAmtGivenInResponse where
  TokenOut : Coin
  deriving DecidableEq, Repr

/-- The fields of `routableCosmWasmPoolImpl` that `CalculateTokenOutByTokenIn` can
reach; `ContractAddress` is `ChainPool.ContractAddress`. -/
structure routableCosmWasmPoolImpl (Dec : Type) where
  ContractAddress : GoString
  Balances : List Coin
  TokenOutDenom : GoString
  TakerFee : Dec
  SpreadFactor : Dec
  deriving DecidableEq, Repr

/-- The errors of `CalculateTokenOutByTokenIn`: `domain.InvalidPoolTypeError` and
whatever error the contract query returned. -/
inductive CWPoolError (QueryErr : Type) where
  | InvalidPoolTypeError (PoolType : Int)
  | queryError (err : QueryErr)
  deriving DecidableEq, Repr

/-- The contract query as the pool sees it: `queryCosmwasmContract` on the pool's
`wasmClient`, from the contract address and the request to the response or an
error.  The client is outside the sources and is taken as a parameter. -/
abbrev ContractQuery (Dec QueryErr : Type) :=
  GoString → CalcOutAmtGivenInRequest Dec → Except QueryErr CalcOutAmtGivenInResponse

/-- Embeds `routableCosmWasmPoolImpl.GetType implements sqsdomain.RoutablePool`. -/
def routableCosmWasmPoolImpl.GetType {Dec : Type} (_r : routableCosmWasmPoolImpl Dec) :
    PoolType :=
  PoolType.CosmWasm

/-- Embeds `routableCosmWasmPoolImpl.CalculateTokenOutByTokenIn`. -/
def routableCosmWasmPoolImpl.CalculateTokenOutByTokenIn {Dec QueryErr : Type}
    (r : routableCosmWasmPoolImpl Dec) (wasmClient : ContractQuery Dec QueryErr)
    (tokenIn : Coin) : Except (CWPoolError QueryErr) Coin :=
  let poolType := r.GetType
  -- Ensure that the pool is cosmwasm
  if poolType ≠ PoolType.CosmWasm then
    .error (.InvalidPoolTypeError poolType.toInt32)
  else
    -- Configure the calc query message
    let calcMessage : CalcOutAmtGivenInRequest Dec :=
      { TokenIn := tokenIn, TokenOutDenom := r.TokenOutDenom, SwapFee := r.SpreadFactor }
    match wasmClient r.ContractAddress calcMessage with
    | .error err => .error (.queryError err)
    | .ok calcOutAmtGivenInResponse => .ok calcOutAmtGivenInResponse.TokenOut

/-- Amount of a denom among the balances of a pool, as `Balances.AmountOf` gives
it: zero when the denom is absent. -/
def amountOf (denom : GoString) : List Coin → Int
  | [] => 0
  | coin :: rest => if coin.Denom = denom then coin.Amount else amountOf denom rest

/-! ## Properties of the chain-freshness guard -/

/-- Rounding to nearest does not go below the floor of the quotient. -/
theorem roundHalfEven_ge (n d : Nat) : n / d ≤ roundHalfEven n d := by
  unfold roundHalfEven
  simp only []
  split_ifs <;> omega

/-- Rounding to nearest goes up by half a unit at most. -/
theorem roundHalfEven_mul_le (n d : Nat) (hd : 0 < d) :
    2 * (roundHalfEven n d * d) ≤ 2 * n + d := by
  have h1 := Nat.div_add_mod n d
  have h2 := Nat.mod_lt n hd
  have h3 : d * (n / d) = n / d * d := Nat.mul_comm _ _
  unfold roundHalfEven
  simp only []
  split_ifs with c1 c2 c3
  · omega
  · rw [Nat.add_mul]; omega
  · omega
  · rw [Nat.add_mul]; omega

/-- Rounding to nearest does not go above a whole number the quotient is not above. -/
theorem roundHalfEven_le_of_le_mul (n d k : Nat) (hd : 0 < d) (h : n ≤ k * d) :
    roundHalfEven n d ≤ k := by
  have h1 := Nat.div_add_mod n d
  have h2 := Nat.mod_lt n hd
  have hq : n / d ≤ k := by
    calc n / d ≤ (k * d) / d := Nat.div_le_div_right h
      _ = k := Nat.mul_div_cancel k hd
  rcases Nat.lt_or_ge (n / d) k with hlt | hge
  · unfold roundHalfEven
    simp only []
    split_ifs <;> omega
  · have hk : n / d = k := by omega
    have hr : n % d = 0 := by
      have : d * (n / d) = k * d := by rw [hk, Nat.mul_comm]
      omega
    unfold roundHalfEven
    simp only [hr]
    rw [if_pos (by omega)]
    omega

/-- A number below `2 ^ (53 + K)` has at most `K` bits too many. -/
theorem excessBits_le (fuel n K : Nat) (h : n < 2 ^ (53 + K)) : excessBits fuel n ≤ K := by
  induction fuel generalizing n K with
  | zero => simp [excessBits]
  | succ fuel ih =>
    unfold excessBits
    split_ifs with hn
    · omega
    · cases K with
      | zero => exact absurd h hn
      | succ K =>
        have : n / 2 < 2 ^ (53 + K) := by
          have hp : 2 ^ (53 + (K + 1)) = 2 * 2 ^ (53 + K) := by
            rw [← Nat.add_assoc, Nat.pow_succ, Nat.mul_comm]
          omega
        have := ih (n / 2) K this
        omega

/-- Rounding a quantity counted in units of `2 ^ -82` does not cross a whole number. -/
theorem roundFloat64_int_bounds (N k : Nat) (hN : N < 2 ^ 135) :
    (k * 2 ^ 82 ≤ N → k * 2 ^ 82 ≤ roundFloat64 N 1) ∧
    (N ≤ k * 2 ^ 82 → roundFloat64 N 1 ≤ k * 2 ^ 82) := by
  unfold roundFloat64
  simp only [Nat.div_one, Nat.one_mul]
  have hs : excessBits 128 N ≤ 82 := excessBits_le 128 N 82 (by simpa using hN)
  generalize excessBits 128 N = s at hs
  have hpos : 0 < 2 ^ s := Nat.pow_pos (by decide)
  have hsplit : (2:Nat) ^ 82 = 2 ^ (82 - s) * 2 ^ s := by
    rw [← Nat.pow_add]; congr 1; omega
  have hk : k * 2 ^ 82 = (k * 2 ^ (82 - s)) * 2 ^ s := by
    rw [hsplit, Nat.mul_assoc]
  constructor
  · intro h
    rw [hk] at h ⊢
    apply Nat.mul_le_mul_right
    calc k * 2 ^ (82 - s) = (k * 2 ^ (82 - s) * 2 ^ s) / 2 ^ s := (Nat.mul_div_cancel _ hpos).symm
      _ ≤ N / 2 ^ s := Nat.div_le_div_right h
      _ ≤ roundHalfEven N (2 ^ s) := roundHalfEven_ge _ _
  · intro h
    rw [hk] at h ⊢
    exact Nat.mul_le_mul_right _ (roundHalfEven_le_of_le_mul N (2 ^ s) _ hpos h)

/-- The rounded `float64(nsec)/1e9` stays at least `2 ^ -30 + 2 ^ -34` below one. -/
theorem frac_le (nsec : Nat) (h : nsec < 1000000000) :
    roundFloat64 (nsec * 2 ^ 82) 1000000000 ≤ 2 ^ 82 - 2 ^ 52 - 2 ^ 48 := by
  unfold roundFloat64
  simp only []
  have hA : nsec * 2 ^ 82 / 1000000000 < 2 ^ (53 + 29) := by
    apply Nat.div_lt_of_lt_mul
    norm_num
    omega
  have hs := excessBits_le 128 _ 29 hA
  generalize excessBits 128 (nsec * 2 ^ 82 / 1000000000) = s at hs
  have hpos : 0 < 1000000000 * 2 ^ s := Nat.mul_pos (by decide) (Nat.pow_pos (by decide))
  have hb := roundHalfEven_mul_le (nsec * 2 ^ 82) (1000000000 * 2 ^ s) hpos
  have hp : 2 ^ s ≤ 2 ^ 29 := Nat.pow_le_pow_right (by decide) hs
  generalize roundHalfEven (nsec * 2 ^ 82) (1000000000 * 2 ^ s) = r at hb
  have e : r * (1000000000 * 2 ^ s) = 1000000000 * (r * 2 ^ s) := by ring
  rw [e] at hb
  generalize r * 2 ^ s = Q at hb
  generalize 2 ^ s = P at hb hp
  norm_num at hb hp ⊢
  omega


/-- Rounding a quantity below `2 ^ (53 + K)` units adds half of `2 ^ K` units at most. -/
theorem roundFloat64_int_le (N K : Nat) (hN : N < 2 ^ (53 + K)) :
    2 * roundFloat64 N 1 ≤ 2 * N + 2 ^ K := by
  unfold roundFloat64
  simp only [Nat.div_one, Nat.one_mul]
  have hs := excessBits_le 128 N K hN
  generalize excessBits 128 N = s at hs
  have hb := roundHalfEven_mul_le N (2 ^ s) (Nat.pow_pos (by decide))
  have hp : 2 ^ s ≤ 2 ^ K := Nat.pow_le_pow_right (by decide) hs
  omega

/-- For a duration in the `int64` range, `int(d.Seconds())` is the whole seconds of
the duration or one more. -/
theorem secondsAbs_bounds (n : Nat) (h : n ≤ 2 ^ 63) :
    n / 1000000000 ≤ secondsAbs n ∧ secondsAbs n ≤ n / 1000000000 + 1 := by
  unfold secondsAbs
  simp only []
  have hQ := frac_le (n % 1000000000) (Nat.mod_lt n (by decide))
  generalize roundFloat64 (n % 1000000000 * 2 ^ 82) 1000000000 = Q at hQ
  have hsec : n / 1000000000 < 2 ^ 34 := by
    apply Nat.div_lt_of_lt_mul
    norm_num at h ⊢
    omega
  generalize n / 1000000000 = sec at hsec
  have hN : sec * 2 ^ 82 + Q < 2 ^ 135 := by
    norm_num at hQ hsec ⊢
    omega
  have hlo := (roundFloat64_int_bounds (sec * 2 ^ 82 + Q) sec hN).1 (Nat.le_add_right _ _)
  have hhi := (roundFloat64_int_bounds (sec * 2 ^ 82 + Q) (sec + 1) hN).2 (by
    norm_num at hQ ⊢
    omega)
  generalize roundFloat64 (sec * 2 ^ 82 + Q) 1 = S at hlo hhi
  constructor
  · exact (Nat.le_div_iff_mul_le (Nat.pow_pos (by decide))).mpr hlo
  · exact Nat.div_le_of_le_mul (by rw [Nat.mul_comm]; exact hhi)

/-- Below `2 ^ 24` seconds, `int(d.Seconds())` is the whole seconds of the duration. -/
theorem secondsAbs_eq (n : Nat) (h : n < 16777216 * 1000000000) :
    secondsAbs n = n / 1000000000 := by
  have hb := (secondsAbs_bounds n (by norm_num; omega)).1
  apply Nat.le_antisymm _ hb
  unfold secondsAbs
  simp only []
  have hQ := frac_le (n % 1000000000) (Nat.mod_lt n (by decide))
  generalize roundFloat64 (n % 1000000000 * 2 ^ 82) 1000000000 = Q at hQ
  have hsec : n / 1000000000 < 16777216 := Nat.div_lt_of_lt_mul (by omega)
  generalize n / 1000000000 = sec at hsec
  have hN : sec * 2 ^ 82 + Q < 2 ^ (53 + 53) := by
    norm_num at hQ ⊢
    omega
  have hS := roundFloat64_int_le (sec * 2 ^ 82 + Q) 53 hN
  generalize roundFloat64 (sec * 2 ^ 82 + Q) 1 = S at hS
  apply Nat.le_of_lt_succ
  apply Nat.div_lt_of_lt_mul
  norm_num at hQ hS ⊢
  omega

/-- The seconds of a negative duration are not positive. -/
theorem durationSecs_of_neg (d : Int) (h : d < 0) : durationSecs d ≤ 0 := by
  unfold durationSecs
  rw [if_pos h]
  omega

/-- The seconds of a non-negative duration are its whole seconds or one more. -/
theorem durationSecs_of_nonneg (d : Int) (h0 : 0 ≤ d) (h : d ≤ maxDuration) :
    d / Second ≤ durationSecs d ∧ durationSecs d ≤ d / Second + 1 := by
  unfold maxDuration at h
  unfold durationSecs Second
  rw [if_neg (by omega)]
  obtain ⟨n, rfl⟩ := Int.eq_ofNat_of_zero_le h0
  simp only [Int.natAbs_ofNat]
  have hb := secondsAbs_bounds n (by norm_num; omega)
  have e : ((n : Int) / 1000000000) = ((n / 1000000000 : Nat) : Int) := by simp
  rw [e]
  omega

/-- The seconds of a non-negative duration below `2 ^ 24` seconds are its whole
seconds. -/
theorem durationSecs_exact (d : Int) (h0 : 0 ≤ d) (h : d < 16777216 * Second) :
    durationSecs d = d / Second := by
  unfold Second at h
  unfold durationSecs Second
  rw [if_neg (by omega)]
  obtain ⟨n, rfl⟩ := Int.eq_ofNat_of_zero_le h0
  simp only [Int.natAbs_ofNat]
  rw [secondsAbs_eq n (by omega)]
  simp

/-- More than 30 seconds are reported exactly for the durations of 31 seconds and
more. -/
theorem durationSecs_gt_iff (d : Int) (h : d ≤ maxDuration) :
    30 < durationSecs d ↔ 31 * Second ≤ d := by
  rcases Int.lt_or_le d 0 with hn | hn
  · have := durationSecs_of_neg d hn
    unfold Second
    constructor <;> intro <;> omega
  · rcases Int.lt_or_le d (31 * Second) with hlt | hge
    · rw [durationSecs_exact d hn (by unfold Second at hlt ⊢; omega)]
      unfold Second at hlt ⊢
      constructor <;> intro <;> omega
    · have := (durationSecs_of_nonneg d hn h).1
      unfold Second at hge this ⊢
      constructor <;> intro <;> omega

/-- The result of `Time.Sub` is in the range of a `Duration`. -/
theorem timeSub_le_max (t u : Int) : timeSub t u ≤ maxDuration := by
  unfold timeSub minDuration maxDuration
  split_ifs <;> omega

/-- The saturation of `Time.Sub` does not move a difference across 31 seconds. -/
theorem timeSub_ge_iff (t u : Int) : 31 * Second ≤ timeSub t u ↔ 31 * Second ≤ t - u := by
  unfold timeSub Second minDuration maxDuration
  split_ifs <;> constructor <;> intro <;> omega

/-- The stale test of `GetLatestHeight` on the elapsed time, in nanoseconds. -/
theorem stale_test_iff (now t : Int) :
    MaxAllowedHeightUpdateTimeDeltaSecs < durationSecs (timeSub now t) ↔
      31 * Second ≤ now - t := by
  unfold MaxAllowedHeightUpdateTimeDeltaSecs
  rw [durationSecs_gt_iff _ (timeSub_le_max now t), timeSub_ge_iff]

/-- The error branch of `GetLatestHeight`, taken exactly when the height did not
go up and at least 31 seconds elapsed. -/
theorem GetLatestHeight_of_stale (p : chainInfoUseCase) (latest : Nat) (now : Int)
    (hh : latest ≤ p.lastSeenUpdatedHeight) (ht : 31 * Second ≤ now - p.lastSeenUpdatedTime) :
    GetLatestHeight p latest now =
      ({ height := 0,
         err := some { StoredHeight := latest,
                       TimeSinceLastUpdate := durationSecs (timeSub now p.lastSeenUpdatedTime),
                       MaxAllowedTimeDeltaSecs := 30 } }, p) := by
  have h1 := (stale_test_iff now p.lastSeenUpdatedTime).mpr ht
  unfold GetLatestHeight
  simp only [gt_iff_lt]
  rw [if_pos]
  · rfl
  · simp [h1, Nat.not_lt.mpr hh]

/-- The success branch of `GetLatestHeight`, taken when the height went up or
fewer than 31 seconds elapsed. -/
theorem GetLatestHeight_of_fresh (p : chainInfoUseCase) (latest : Nat) (now : Int)
    (h : p.lastSeenUpdatedHeight < latest ∨ now - p.lastSeenUpdatedTime < 31 * Second) :
    GetLatestHeight p latest now =
      ({ height := latest, err := none },
       { lastSeenUpdatedHeight := latest, lastSeenUpdatedTime := now }) := by
  unfold GetLatestHeight
  simp only [gt_iff_lt]
  rw [if_neg]
  intro hc
  simp only [Bool.and_eq_true, Bool.not_eq_true', decide_eq_false_iff_not, decide_eq_true_eq]
    at hc
  rcases h with h | h
  · exact hc.1 h
  · have := (stale_test_iff now p.lastSeenUpdatedTime).mp hc.2
    omega

/-- A call answered with an error took the error branch. -/
theorem stale_of_err (p : chainInfoUseCase) (latest : Nat) (now : Int)
    (h : (GetLatestHeight p latest now).1.err ≠ none) :
    latest ≤ p.lastSeenUpdatedHeight ∧ 31 * Second ≤ now - p.lastSeenUpdatedTime := by
  by_contra hc
  have hf : p.lastSeenUpdatedHeight < latest ∨ now - p.lastSeenUpdatedTime < 31 * Second := by
    by_cases h1 : latest ≤ p.lastSeenUpdatedHeight
    · right
      by_contra h2
      exact hc ⟨h1, by omega⟩
    · left
      omega
  rw [GetLatestHeight_of_fresh p latest now hf] at h
  exact h rfl

/-- Repeating a call that the guard answers with the error, at any times at
which it is still stale, gives the error every time and leaves the fields alone. -/
theorem GetLatestHeightSeq_of_stale (p : chainInfoUseCase) (latest : Nat)
    (hh : latest ≤ p.lastSeenUpdatedHeight) (later : List Int)
    (hl : ∀ t ∈ later, 31 * Second ≤ t - p.lastSeenUpdatedTime) :
    (GetLatestHeightSeq p (later.map fun t => (latest, t))).2 = p ∧
      (GetLatestHeightSeq p (later.map fun t => (latest, t))).1.length = later.length ∧
      ∀ r ∈ (GetLatestHeightSeq p (later.map fun t => (latest, t))).1,
        r.height = 0 ∧ r.err ≠ none := by
  induction later with
  | nil => simp [GetLatestHeightSeq]
  | cons t rest ih =>
    have ht := hl t (List.mem_cons_self t rest)
    have ih' := ih (fun u hu => hl u (List.mem_cons_of_mem t hu))
    simp only [List.map_cons, GetLatestHeightSeq, GetLatestHeight_of_stale p latest t hh ht,
      List.length_cons, List.mem_cons]
    refine ⟨ih'.1, by rw [ih'.2.1], ?_⟩
    intro r hr
    rcases hr with hr | hr
    · subst hr
      simp
    · exact ih'.2.2 r hr

/-- C1 (as stated, refuted): with height 100 recorded at time 0, a call that
observes 100 again 30.5 seconds later, more than 30 seconds after the recorded
time, succeeds and returns 100. -/
theorem GetLatestHeight_stale_counterexample :
    30 * Second < 30500000000 - (0 : Int) ∧
      GetLatestHeight { lastSeenUpdatedHeight := 100, lastSeenUpdatedTime := 0 } 100 30500000000 =
        ({ height := 100, err := none },
         { lastSeenUpdatedHeight := 100, lastSeenUpdatedTime := 30500000000 }) := by
  decide

/-- C1 (amended): a call that observes the recorded height `h` at least 31 seconds
after the recorded time fails with a `StaleHeightError` whose `StoredHeight` is
`h`, whose `MaxAllowedTimeDeltaSecs` is 30 and whose `TimeSinceLastUpdate` is
`int(now.Sub(t).Seconds())`, a number strictly greater than 30: the elapsed
time is first saturated to the largest `Duration`, the result is the whole
seconds of that duration or one more (the `float64` sum can round up to the
next second), and it is the elapsed time in whole seconds whenever fewer than
`2^24` seconds elapsed. -/
theorem GetLatestHeight_stale (p : chainInfoUseCase) (now : Int)
    (h : 31 * Second ≤ now - p.lastSeenUpdatedTime) :
    30 < durationSecs (timeSub now p.lastSeenUpdatedTime) ∧
      (GetLatestHeight p p.lastSeenUpdatedHeight now).1 =
        { height := 0,
          err := some { StoredHeight := p.lastSeenUpdatedHeight,
                        TimeSinceLastUpdate := durationSecs (timeSub now p.lastSeenUpdatedTime),
                        MaxAllowedTimeDeltaSecs := 30 } } ∧
      timeSub now p.lastSeenUpdatedTime = min (now - p.lastSeenUpdatedTime) maxDuration ∧
      timeSub now p.lastSeenUpdatedTime / Second ≤
        durationSecs (timeSub now p.lastSeenUpdatedTime) ∧
      durationSecs (timeSub now p.lastSeenUpdatedTime) ≤
        timeSub now p.lastSeenUpdatedTime / Second + 1 ∧
      (now - p.lastSeenUpdatedTime < 16777216 * Second →
        durationSecs (timeSub now p.lastSeenUpdatedTime) =
          (now - p.lastSeenUpdatedTime) / Second) := by
  have hsat : timeSub now p.lastSeenUpdatedTime = min (now - p.lastSeenUpdatedTime) maxDuration := by
    unfold Second at h
    unfold timeSub minDuration maxDuration
    split_ifs with h1 h2
    · omega
    · rw [min_eq_right (by omega)]
    · rw [min_eq_left (by omega)]
  have hnn : 0 ≤ timeSub now p.lastSeenUpdatedTime := by
    have := (timeSub_ge_iff now p.lastSeenUpdatedTime).mpr h
    unfold Second at this
    omega
  have hb := durationSecs_of_nonneg _ hnn (timeSub_le_max now p.lastSeenUpdatedTime)
  refine ⟨(stale_test_iff now p.lastSeenUpdatedTime).mpr h, ?_, hsat, hb.1, hb.2, ?_⟩
  · rw [GetLatestHeight_of_stale p p.lastSeenUpdatedHeight now (Nat.le_refl _) h]
  · intro hlt
    have heq : timeSub now p.lastSeenUpdatedTime = now - p.lastSeenUpdatedTime := by
      rw [hsat]
      apply min_eq_left
      unfold Second at hlt
      unfold maxDuration
      omega
    rw [heq] at hnn ⊢
    exact durationSecs_exact _ hnn hlt

/-- Witness of C1 (amended): height 100 recorded at time 0 and observed again 31
seconds later. -/
theorem GetLatestHeight_stale_witness :
    31 * Second ≤ 31000000000 - (0 : Int) ∧
      (GetLatestHeight { lastSeenUpdatedHeight := 100, lastSeenUpdatedTime := 0 }
          100 31000000000).1 =
        { height := 0,
          err := some { StoredHeight := 100, TimeSinceLastUpdate := 31,
                        MaxAllowedTimeDeltaSecs := 30 } } :=
  ⟨by decide,
   (GetLatestHeight_stale { lastSeenUpdatedHeight := 100, lastSeenUpdatedTime := 0 }
      31000000000 (by decide)).2.1⟩

/-- The reported seconds at three stale calls.  With height 100 recorded at time
0, the call `2^24` seconds and 999999999 nanoseconds later reports 16777217
seconds, one more than the whole seconds elapsed, and the call one second
earlier reports the 16777215 whole seconds; on a fresh guard that is reported
height 0, the elapsed time is saturated and 9223372036 seconds are reported. -/
theorem staleError_seconds_examples :
    (GetLatestHeight { lastSeenUpdatedHeight := 100, lastSeenUpdatedTime := 0 }
        100 16777216999999999).1 =
      { height := 0,
        err := some { StoredHeight := 100, TimeSinceLastUpdate := 16777217,
                      MaxAllowedTimeDeltaSecs := 30 } } ∧
      (GetLatestHeight { lastSeenUpdatedHeight := 100, lastSeenUpdatedTime := 0 }
        100 16777215999999999).1 =
      { height := 0,
        err := some { StoredHeight := 100, TimeSinceLastUpdate := 16777215,
                      MaxAllowedTimeDeltaSecs := 30 } } ∧
      (GetLatestHeight NewChainInfoUsecase 0 63929388829000000000).1 =
      { height := 0,
        err := some { StoredHeight := 0, TimeSinceLastUpdate := 9223372036,
                      MaxAllowedTimeDeltaSecs := 30 } } := by
  decide

/-- C2: a call that observes the recorded height `h` at most 30 seconds after the
recorded time succeeds and returns `h`; and on a fresh guard three successive
calls that each observe 100, each less than 30 seconds after the one before, all
succeed and return 100. -/
theorem GetLatestHeight_unchanged_within_window (p : chainInfoUseCase) (now : Int)
    (h : now - p.lastSeenUpdatedTime ≤ 30 * Second) (t1 t2 t3 : Int)
    (h12 : t2 - t1 < 30 * Second) (h23 : t3 - t2 < 30 * Second) :
    (GetLatestHeight p p.lastSeenUpdatedHeight now).1 =
        { height := p.lastSeenUpdatedHeight, err := none } ∧
      (GetLatestHeightSeq NewChainInfoUsecase [(100, t1), (100, t2), (100, t3)]).1 =
        [{ height := 100, err := none }, { height := 100, err := none },
         { height := 100, err := none }] := by
  unfold Second at h h12 h23
  constructor
  · rw [GetLatestHeight_of_fresh p _ now (Or.inr (by unfold Second; omega))]
  · have e1 := GetLatestHeight_of_fresh NewChainInfoUsecase 100 t1
      (Or.inl (by decide))
    have e2 := GetLatestHeight_of_fresh
      { lastSeenUpdatedHeight := 100, lastSeenUpdatedTime := t1 } 100 t2
      (Or.inr (by unfold Second; show t2 - t1 < 31 * 1000000000; omega))
    have e3 := GetLatestHeight_of_fresh
      { lastSeenUpdatedHeight := 100, lastSeenUpdatedTime := t2 } 100 t3
      (Or.inr (by unfold Second; show t3 - t2 < 31 * 1000000000; omega))
    simp only [GetLatestHeightSeq, e1, e2, e3]

/-- Witness of C2: height 100 recorded at time 0 and observed again exactly 30
seconds later; and calls on a fresh guard at 5, 25 and 45 seconds. -/
theorem GetLatestHeight_unchanged_within_window_witness :
    (GetLatestHeight { lastSeenUpdatedHeight := 100, lastSeenUpdatedTime := 0 }
          100 30000000000).1 = { height := 100, err := none } ∧
      (GetLatestHeightSeq NewChainInfoUsecase
          [(100, 5000000000), (100, 25000000000), (100, 45000000000)]).1 =
        [{ height := 100, err := none }, { height := 100, err := none },
         { height := 100, err := none }] :=
  GetLatestHeight_unchanged_within_window
    { lastSeenUpdatedHeight := 100, lastSeenUpdatedTime := 0 } 30000000000 (by decide)
    5000000000 25000000000 45000000000 (by decide) (by decide)

/-- C3: whatever the recorded fields and the time of the call, a call that
observes a height strictly greater than the recorded one succeeds, returns the
observed height, and leaves the observed height and the time of the call
recorded. -/
theorem GetLatestHeight_height_increased (p : chainInfoUseCase) (latest : Nat) (now : Int)
    (h : p.lastSeenUpdatedHeight < latest) :
    GetLatestHeight p latest now =
      ({ height := latest, err := none },
       { lastSeenUpdatedHeight := latest, lastSeenUpdatedTime := now }) :=
  GetLatestHeight_of_fresh p latest now (Or.inl h)

/-- Witness of C3: height 100 recorded at time 0, height 101 observed a thousand
seconds later. -/
theorem GetLatestHeight_height_increased_witness :
    GetLatestHeight { lastSeenUpdatedHeight := 100, lastSeenUpdatedTime := 0 }
        101 1000000000000 =
      ({ height := 101, err := none },
       { lastSeenUpdatedHeight := 101, lastSeenUpdatedTime := 1000000000000 }) :=
  GetLatestHeight_height_increased { lastSeenUpdatedHeight := 100, lastSeenUpdatedTime := 0 }
    101 1000000000000 (by decide)

/-- C4: when `GetLatestHeight` returns a `StaleHeightError`, the recorded height
and time are what they were before the call and the returned height is 0; the
same observed height at any later times fails every time, fields still
untouched, while a height strictly greater than the recorded one succeeds. -/
theorem GetLatestHeight_error_atomic (p : chainInfoUseCase) (latest : Nat) (now : Int)
    (e : StaleHeightError) (h : (GetLatestHeight p latest now).1.err = some e) :
    (GetLatestHeight p latest now).2 = p ∧
      (GetLatestHeight p latest now).1.height = 0 ∧
      (∀ later : List Int, (∀ t ∈ later, now ≤ t) →
        (GetLatestHeightSeq p (later.map fun t => (latest, t))).2 = p ∧
        (GetLatestHeightSeq p (later.map fun t => (latest, t))).1.length = later.length ∧
        ∀ r ∈ (GetLatestHeightSeq p (later.map fun t => (latest, t))).1,
          r.height = 0 ∧ r.err ≠ none) ∧
      (∀ (latest' : Nat) (now' : Int), p.lastSeenUpdatedHeight < latest' →
        (GetLatestHeight p latest' now').1 = { height := latest', err := none }) := by
  have hs := stale_of_err p latest now (by rw [h]; simp)
  rw [GetLatestHeight_of_stale p latest now hs.1 hs.2]
  refine ⟨rfl, rfl, ?_, ?_⟩
  · intro later hl
    exact GetLatestHeightSeq_of_stale p latest hs.1 later
      (fun t ht => by have := hl t ht; have := hs.2; omega)
  · intro latest' now' hlt
    rw [GetLatestHeight_of_fresh p latest' now' (Or.inl hlt)]

/-- Witness of C4: height 100 recorded at time 0, observed again 31 seconds later. -/
theorem GetLatestHeight_error_atomic_witness :
    (GetLatestHeight { lastSeenUpdatedHeight := 100, lastSeenUpdatedTime := 0 }
        100 31000000000).2 = { lastSeenUpdatedHeight := 100, lastSeenUpdatedTime := 0 } ∧
      (GetLatestHeight { lastSeenUpdatedHeight := 100, lastSeenUpdatedTime := 0 }
        100 31000000000).1.height = 0 :=
  have h := GetLatestHeight_error_atomic
    { lastSeenUpdatedHeight := 100, lastSeenUpdatedTime := 0 } 100 31000000000
    { StoredHeight := 100, TimeSinceLastUpdate := 31, MaxAllowedTimeDeltaSecs := 30 }
    (by decide)
  ⟨h.1, h.2.1⟩

/-- C5 (the code at the failing input): with height 100 recorded at time 0, a
successful call that observes 100 again after 20 seconds moves the recorded
time to 20 seconds, and the call after 40 seconds, more than 30 seconds after
100 was first observed, succeeds. -/
theorem GetLatestHeight_polled_stuck_chain :
    (GetLatestHeight { lastSeenUpdatedHeight := 100, lastSeenUpdatedTime := 0 }
        100 20000000000).2.lastSeenUpdatedTime = 20000000000 ∧
      GetLatestHeightSeq { lastSeenUpdatedHeight := 100, lastSeenUpdatedTime := 0 }
          [(100, 20000000000), (100, 40000000000)] =
        ([{ height := 100, err := none }, { height := 100, err := none }],
         { lastSeenUpdatedHeight := 100, lastSeenUpdatedTime := 40000000000 }) := by
  decide

/-- C6 (as stated, refuted): with height 100 recorded at time 0, a call one second
later that is reported height 50 succeeds and leaves 50 recorded. -/
theorem GetLatestHeight_monotonic_counterexample :
    GetLatestHeight { lastSeenUpdatedHeight := 100, lastSeenUpdatedTime := 0 } 50 1000000000 =
        ({ height := 50, err := none },
         { lastSeenUpdatedHeight := 50, lastSeenUpdatedTime := 1000000000 }) ∧
      ¬ (100 ≤ (GetLatestHeight { lastSeenUpdatedHeight := 100, lastSeenUpdatedTime := 0 }
          50 1000000000).2.lastSeenUpdatedHeight) := by
  decide

/-- C6 (amended): across every sequence of calls in which each reported height is
not below the recorded one at the time of its call, or is answered with the
stale-height error, the recorded height never decreases: after each call it is
greater than or equal to its value before the call. -/
theorem GetLatestHeight_monotonic (p : chainInfoUseCase) (calls : List (Nat × Int))
    (h : noAcceptedLowerHeight p calls) :
    List.Chain (fun a b => a.lastSeenUpdatedHeight ≤ b.lastSeenUpdatedHeight) p
      (statesAfter p calls) := by
  induction calls generalizing p with
  | nil => exact List.Chain.nil
  | cons c rest ih =>
    obtain ⟨latest, now⟩ := c
    obtain ⟨h1, h2⟩ := h
    refine List.Chain.cons ?_ (ih _ h2)
    rcases h1 with h1 | h1
    · by_cases hf : p.lastSeenUpdatedHeight < latest ∨
          now - p.lastSeenUpdatedTime < 31 * Second
      · rw [GetLatestHeight_of_fresh p latest now hf]
        exact h1
      · have hs := stale_of_err p latest now (by
          intro hn
          apply hf
          by_contra hc
          have h3 : latest ≤ p.lastSeenUpdatedHeight := by omega
          have h4 : 31 * Second ≤ now - p.lastSeenUpdatedTime := by omega
          rw [GetLatestHeight_of_stale p latest now h3 h4] at hn
          simp at hn)
        rw [GetLatestHeight_of_stale p latest now hs.1 hs.2]
    · have hs := stale_of_err p latest now h1
      rw [GetLatestHeight_of_stale p latest now hs.1 hs.2]

/-- Witness of C6 (amended): from height 100 recorded at time 0, the reports 100
after 10 seconds, 150 after 50 seconds and 120 after 100 seconds; the last one
is answered with the error. -/
theorem GetLatestHeight_monotonic_witness :
    List.Chain (fun a b => a.lastSeenUpdatedHeight ≤ b.lastSeenUpdatedHeight)
      { lastSeenUpdatedHeight := 100, lastSeenUpdatedTime := 0 }
      (statesAfter { lastSeenUpdatedHeight := 100, lastSeenUpdatedTime := 0 }
        [(100, 10000000000), (150, 50000000000), (120, 100000000000)]) :=
  GetLatestHeight_monotonic { lastSeenUpdatedHeight := 100, lastSeenUpdatedTime := 0 }
    [(100, 10000000000), (150, 50000000000), (120, 100000000000)]
    ⟨Or.inl (by decide), Or.inl (by decide), Or.inr (by decide), trivial⟩

/-! ## Properties of the pricing cache key -/

/-- The first component after the swap of two denoms into increasing order. -/
theorem swap_fst_eq_min (denom0 denom1 : GoString) :
    (if denom1 < denom0 then denom1 else denom0) = min denom0 denom1 := by
  by_cases h : denom1 < denom0
  · rw [if_pos h, min_eq_right h.le]
  · rw [if_neg h, min_eq_left (not_lt.mp h)]

/-- The second component after the swap of two denoms into increasing order. -/
theorem swap_snd_eq_max (denom0 denom1 : GoString) :
    (if denom1 < denom0 then denom0 else denom1) = max denom0 denom1 := by
  by_cases h : denom1 < denom0
  · rw [if_pos h, max_eq_left h.le]
  · rw [if_neg h, max_eq_right (not_lt.mp h)]

/-- C7: `FormatPricingCacheKey(a, b)` equals `FormatPricingCacheKey(b, a)`, and the
key is the lexicographically larger of the two denoms followed by the smaller. -/
theorem FormatPricingCacheKey_symm (a b : GoString) :
    FormatPricingCacheKey a b = FormatPricingCacheKey b a ∧
      FormatPricingCacheKey a b = max a b ++ min a b := by
  have key : ∀ x y : GoString, FormatPricingCacheKey x y = max x y ++ min x y := by
    intro x y
    unfold FormatPricingCacheKey
    simp only []
    rw [swap_snd_eq_max y x, swap_fst_eq_min y x, max_comm, min_comm]
  refine ⟨?_, key a b⟩
  rw [key a b, key b a, max_comm, min_comm]

/-! ## Properties of the taker-fee repository -/

/-- Executing a pipeline whose last command is `cmd`. -/
theorem execCmds_append_singleton (store : Store) (cmds : List Cmd) (cmd : Cmd) :
    execCmds store (cmds ++ [cmd]) =
      ((execCmd (execCmds store cmds).1 cmd).1,
       (execCmds store cmds).2 ++ [(execCmd (execCmds store cmds).1 cmd).2]) := by
  induction cmds generalizing store with
  | nil => rfl
  | cons c rest ih =>
    show execCmds store (c :: (rest ++ [cmd])) = _
    simp only [execCmds, ih, List.cons_append]

/-- A field that was just set holds the value set. -/
theorem hashGet_hashSet (field value : GoString) (h : Hash) :
    hashGet field (hashSet field value h) = some value := by
  induction h with
  | nil => simp [hashSet, hashGet]
  | cons e rest ih =>
    obtain ⟨f, v⟩ := e
    by_cases hf : f = field
    · simp [hashSet, hashGet, hf]
    · simp [hashSet, hashGet, hf, ih]

/-- What `GetTakerFee` reads: the field of the taker-fee hash named by the smaller
denom, the separator and the larger denom. -/
theorem GetTakerFee_eq {Dec : Type} (c : DecCodec Dec) (store : Store)
    (denom0 denom1 : GoString) :
    GetTakerFee c store denom0 denom1 =
      match hashGet (min denom0 denom1 ++ keySeparator ++ max denom0 denom1)
          (store takerFeePrefix) with
      | some resultStr =>
        (match c.NewDecFromStr resultStr with
         | some fee => .ok fee
         | none => .error (.invalidDec resultStr))
      | none => .error .redisNil := by
  unfold GetTakerFee
  simp only []
  rw [swap_fst_eq_min, swap_snd_eq_max]
  generalize min denom0 denom1 ++ keySeparator ++ max denom0 denom1 = field
  cases hg : hashGet field (store takerFeePrefix) with
  | none =>
    simp [StartTx, NewRedisTx, RedisTx.GetPipeliner, RedisTx.IsActive, Pipeliner.Exec,
      execCmds, execCmd, firstError, hg]
  | some v =>
    simp [StartTx, NewRedisTx, RedisTx.GetPipeliner, RedisTx.IsActive, Pipeliner.Exec,
      execCmds, execCmd, firstError, hg]

/-- What `SetTakerFee` stages on a transaction in progress. -/
theorem SetTakerFee_eq {Dec : Type} (c : DecCodec Dec) (pipeliner : Pipeliner)
    (denom0 denom1 : GoString) (takerFee : Dec) :
    SetTakerFee c (NewRedisTx pipeliner) denom0 denom1 takerFee =
      (none, NewRedisTx
        { queued := pipeliner.queued ++
            [Cmd.HSet takerFeePrefix (min denom0 denom1 ++ keySeparator ++ max denom0 denom1)
              (c.String takerFee)] }) := by
  unfold SetTakerFee
  simp only []
  rw [swap_fst_eq_min, swap_snd_eq_max]
  simp [NewRedisTx, RedisTx.GetPipeliner, RedisTx.IsActive]

/-- C8: after `SetTakerFee(tx, d0, d1, f)` on a transaction in progress and the
execution of the transaction, `GetTakerFee(d1, d0)` and `GetTakerFee(d0, d1)`
both return `f`, for every fee that `NewDecFromStr` reads back from its
`String()`; the field written and the field read, in either order of the
denoms, is the smaller denom, the separator and the larger denom. -/
theorem SetTakerFee_GetTakerFee_roundtrip {Dec : Type} (c : DecCodec Dec) (store : Store)
    (pipeliner : Pipeliner) (d0 d1 : GoString) (f : Dec)
    (hvalid : c.NewDecFromStr (c.String f) = some f) :
    SetTakerFee c (NewRedisTx pipeliner) d0 d1 f =
        (none, NewRedisTx
          { queued := pipeliner.queued ++
              [Cmd.HSet takerFeePrefix (min d0 d1 ++ keySeparator ++ max d0 d1) (c.String f)] }) ∧
      (∃ err store', (SetTakerFee c (NewRedisTx pipeliner) d0 d1 f).2.Exec store =
            some (err, { pipeliner := none }, store') ∧
          hashGet (min d0 d1 ++ keySeparator ++ max d0 d1) (store' takerFeePrefix) =
            some (c.String f) ∧
          GetTakerFee c store' d1 d0 = .ok f ∧ GetTakerFee c store' d0 d1 = .ok f) ∧
      (∀ s : Store, GetTakerFee c s d1 d0 = GetTakerFee c s d0 d1) := by
  refine ⟨SetTakerFee_eq c pipeliner d0 d1 f, ?_, ?_⟩
  · rw [SetTakerFee_eq]
    refine ⟨_, _, rfl, ?_⟩
    have hget : hashGet (min d0 d1 ++ keySeparator ++ max d0 d1)
        ((Pipeliner.Exec
          { queued := pipeliner.queued ++
              [Cmd.HSet takerFeePrefix (min d0 d1 ++ keySeparator ++ max d0 d1) (c.String f)] }
          store).1 takerFeePrefix) = some (c.String f) := by
      simp only [Pipeliner.Exec, execCmds_append_singleton, execCmd, if_true]
      exact hashGet_hashSet _ _ _
    refine ⟨hget, ?_, ?_⟩
    · rw [GetTakerFee_eq, min_comm, max_comm, hget]
      simp only [hvalid]
    · rw [GetTakerFee_eq, hget]
      simp only [hvalid]
  · intro s
    rw [GetTakerFee_eq, GetTakerFee_eq, min_comm, max_comm]

/-- Witness of C8: the fee set for (uosmo, uatom) on a fresh transaction over an
empty store is read back for (uatom, uosmo) and for (uosmo, uatom). -/
theorem SetTakerFee_GetTakerFee_roundtrip_witness :
    textDecCodec.NewDecFromStr (textDecCodec.String "0.001000000000000000".toList) =
        some "0.001000000000000000".toList ∧
      ∃ err store',
        (SetTakerFee textDecCodec (NewRedisTx { queued := [] }) "uosmo".toList "uatom".toList
            "0.001000000000000000".toList).2.Exec (fun _ => []) =
          some (err, { pipeliner := none }, store') ∧
        hashGet (min "uosmo".toList "uatom".toList ++ keySeparator ++
            max "uosmo".toList "uatom".toList) (store' takerFeePrefix) =
          some (textDecCodec.String "0.001000000000000000".toList) ∧
        GetTakerFee textDecCodec store' "uatom".toList "uosmo".toList =
          .ok "0.001000000000000000".toList ∧
        GetTakerFee textDecCodec store' "uosmo".toList "uatom".toList =
          .ok "0.001000000000000000".toList :=
  ⟨by decide,
   (SetTakerFee_GetTakerFee_roundtrip textDecCodec (fun _ => []) { queued := [] }
      "uosmo".toList "uatom".toList "0.001000000000000000".toList (by decide)).2.1⟩

/-- Unfolding of `GetAllTakerFees`: its loop run on the taker-fee hash in range order. -/
theorem GetAllTakerFees_eq {Dec : Type} (c : DecCodec Dec) (rangeOrder : Hash → Hash)
    (store : Store) :
    GetAllTakerFees c rangeOrder store =
      parseTakerFeeMap c (rangeOrder (store takerFeePrefix)) [] := rfl

/-- The loop of `GetAllTakerFees` fails when one of the entries it is to visit has
a key that does not split into two components in order. -/
theorem parseTakerFeeMap_corrupted {Dec : Type} (c : DecCodec Dec) (entries : Hash)
    (m : TakerFeeMap Dec) (key value : GoString) (hmem : (key, value) ∈ entries)
    (hbad : (stringsSplit '~' key).length ≠ 2 ∨
      ∃ a b, stringsSplit '~' key = [a, b] ∧ b < a) :
    ∃ err, parseTakerFeeMap c entries m = .error err := by
  induction entries generalizing m with
  | nil => simp at hmem
  | cons e rest ih =>
    obtain ⟨k, v⟩ := e
    cases hp : c.NewDecFromStr v with
    | none => exact ⟨_, by simp only [parseTakerFeeMap, hp]; rfl⟩
    | some fee =>
      rcases hsp : stringsSplit '~' k with _ | ⟨a, _ | ⟨b, _ | ⟨x, t⟩⟩⟩
      · exact ⟨_, by simp only [parseTakerFeeMap, hp, hsp]; rfl⟩
      · exact ⟨_, by simp only [parseTakerFeeMap, hp, hsp]; rfl⟩
      · by_cases hlt : b < a
        · exact ⟨_, by simp only [parseTakerFeeMap, hp, hsp, gt_iff_lt, if_pos hlt]; rfl⟩
        · have hrest : (key, value) ∈ rest := by
            rcases List.mem_cons.mp hmem with heq | hin
            · exfalso
              have hk : key = k := congrArg Prod.fst heq
              subst hk
              rcases hbad with hlen | ⟨a', b', hab, hlt'⟩
              · rw [hsp] at hlen
                exact hlen rfl
              · rw [hsp] at hab
                simp only [List.cons.injEq, and_true] at hab
                obtain ⟨ha, hb⟩ := hab
                subst ha hb
                exact hlt hlt'
            · exact hin
          obtain ⟨err, herr⟩ :=
            ih (TakerFeeMap.set { Denom0 := a, Denom1 := b } fee m) hrest
          exact ⟨err, by simp only [parseTakerFeeMap, hp, hsp, gt_iff_lt, if_neg hlt, herr]⟩
      · exact ⟨_, by simp only [parseTakerFeeMap, hp, hsp]; rfl⟩

/-- An entry of a map after an assignment is the one assigned or was there before. -/
theorem TakerFeeMap.mem_set {Dec : Type} (k : DenomPair) (v : Dec) (m : TakerFeeMap Dec)
    (kv : DenomPair × Dec) (h : kv ∈ TakerFeeMap.set k v m) : kv = (k, v) ∨ kv ∈ m := by
  induction m with
  | nil =>
    left
    simpa [TakerFeeMap.set] using h
  | cons e rest ih =>
    obtain ⟨k', v'⟩ := e
    by_cases hk : k' = k
    · simp only [TakerFeeMap.set, hk, if_true, List.mem_cons] at h
      rcases h with h | h
      · exact Or.inl h
      · exact Or.inr (List.mem_cons_of_mem _ h)
    · simp only [TakerFeeMap.set, hk, if_false, List.mem_cons] at h
      rcases h with h | h
      · exact Or.inr (by rw [h]; exact List.mem_cons_self _ _)
      · rcases ih h with h' | h'
        · exact Or.inl h'
        · exact Or.inr (List.mem_cons_of_mem _ h')

/-- The loop of `GetAllTakerFees` only adds keys whose first denom is not above
the second. -/
theorem parseTakerFeeMap_ordered {Dec : Type} (c : DecCodec Dec) (entries : Hash)
    (m0 m : TakerFeeMap Dec) (h : parseTakerFeeMap c entries m0 = .ok m)
    (h0 : ∀ kv ∈ m0, kv.1.Denom0 ≤ kv.1.Denom1) :
    ∀ kv ∈ m, kv.1.Denom0 ≤ kv.1.Denom1 := by
  induction entries generalizing m0 with
  | nil =>
    simp only [parseTakerFeeMap, Except.ok.injEq] at h
    subst h
    exact h0
  | cons e rest ih =>
    obtain ⟨k, v⟩ := e
    cases hp : c.NewDecFromStr v with
    | none => simp [parseTakerFeeMap, hp] at h
    | some fee =>
      rcases hsp : stringsSplit '~' k with _ | ⟨a, _ | ⟨b, _ | ⟨x, t⟩⟩⟩
      · simp [parseTakerFeeMap, hp, hsp] at h
      · simp [parseTakerFeeMap, hp, hsp] at h
      · by_cases hlt : b < a
        · simp [parseTakerFeeMap, hp, hsp, hlt] at h
        · simp only [parseTakerFeeMap, hp, hsp, gt_iff_lt, if_neg hlt] at h
          refine ih _ h ?_
          intro kv hkv
          rcases TakerFeeMap.mem_set _ _ _ _ hkv with heq | hin
          · rw [heq]
            exact not_lt.mp hlt
          · exact h0 kv hin
      · simp [parseTakerFeeMap, hp, hsp] at h

/-- C9: when at least one field key of the taker-fee hash does not split on `~`
into exactly two components, or splits into two with the first greater than
the second, `GetAllTakerFees` returns an error and no map, whatever the other
entries are and in whatever order the entries are visited. -/
theorem GetAllTakerFees_corrupted_key {Dec : Type} (c : DecCodec Dec)
    (rangeOrder : Hash → Hash) (hrange : ∀ h, (rangeOrder h).Perm h) (store : Store)
    (key value : GoString) (hmem : (key, value) ∈ store takerFeePrefix)
    (hbad : (stringsSplit '~' key).length ≠ 2 ∨
      ∃ a b, stringsSplit '~' key = [a, b] ∧ b < a) :
    ∃ err, GetAllTakerFees c rangeOrder store = .error err := by
  rw [GetAllTakerFees_eq]
  exact parseTakerFeeMap_corrupted c _ [] key value
    ((hrange (store takerFeePrefix)).mem_iff.mpr hmem) hbad

/-- Witness of C9: a hash with a well-formed key and a key of three components,
visited last to first. -/
theorem GetAllTakerFees_corrupted_key_witness :
    ∃ err, GetAllTakerFees textDecCodec List.reverse
      (fun k => if k = takerFeePrefix then
          [("uatom~uosmo".toList, "0.1".toList), ("a~b~c".toList, "0.2".toList)]
        else []) = .error err :=
  GetAllTakerFees_corrupted_key textDecCodec List.reverse (fun h => List.reverse_perm h)
    (fun k => if k = takerFeePrefix then
        [("uatom~uosmo".toList, "0.1".toList), ("a~b~c".toList, "0.2".toList)]
      else [])
    "a~b~c".toList "0.2".toList (by decide) (Or.inl (by decide))

/-- C10 (as stated, refuted): the stored key `uosmo~uosmo`, whose two components
are equal, is accepted, and the map returned has a key whose `Denom0` is not
strictly less than its `Denom1`. -/
theorem GetAllTakerFees_strict_order_counterexample :
    GetAllTakerFees textDecCodec id
        (fun k => if k = takerFeePrefix then [("uosmo~uosmo".toList, "0.1".toList)] else []) =
      .ok [({ Denom0 := "uosmo".toList, Denom1 := "uosmo".toList }, "0.1".toList)] ∧
      ¬ ("uosmo".toList < "uosmo".toList) :=
  ⟨rfl, by decide⟩

/-- C10 (amended): every `DenomPair` key of a map successfully returned by
`GetAllTakerFees` has `Denom0` less than or equal to `Denom1`; a stored key
whose two components have the first strictly greater than the second is
rejected with an error. -/
theorem GetAllTakerFees_denom_order {Dec : Type} (c : DecCodec Dec)
    (rangeOrder : Hash → Hash) (hrange : ∀ h, (rangeOrder h).Perm h) (store : Store) :
    (∀ m, GetAllTakerFees c rangeOrder store = .ok m →
        ∀ kv ∈ m, kv.1.Denom0 ≤ kv.1.Denom1) ∧
      (∀ key value a b, (key, value) ∈ store takerFeePrefix →
        stringsSplit '~' key = [a, b] → b < a →
        ∃ err, GetAllTakerFees c rangeOrder store = .error err) := by
  constructor
  · intro m hm
    rw [GetAllTakerFees_eq] at hm
    exact parseTakerFeeMap_ordered c _ [] m hm (by simp)
  · intro key value a b hmem hsp hlt
    rw [GetAllTakerFees_eq]
    exact parseTakerFeeMap_corrupted c _ [] key value
      ((hrange (store takerFeePrefix)).mem_iff.mpr hmem) (Or.inr ⟨a, b, hsp, hlt⟩)

/-- Witness of C10 (amended): the map read from a hash with the keys
`uatom~uosmo` and `uosmo~uosmo`, and the order of the denoms of its two keys. -/
theorem GetAllTakerFees_denom_order_witness :
    GetAllTakerFees textDecCodec id
        (fun k => if k = takerFeePrefix then
            [("uatom~uosmo".toList, "0.1".toList), ("uosmo~uosmo".toList, "0.2".toList)]
          else []) =
      .ok [({ Denom0 := "uatom".toList, Denom1 := "uosmo".toList }, "0.1".toList),
           ({ Denom0 := "uosmo".toList, Denom1 := "uosmo".toList }, "0.2".toList)] ∧
      "uatom".toList ≤ "uosmo".toList ∧ "uosmo".toList ≤ "uosmo".toList :=
  have h := (GetAllTakerFees_denom_order textDecCodec id (fun h => List.Perm.refl h)
    (fun k => if k = takerFeePrefix then
        [("uatom~uosmo".toList, "0.1".toList), ("uosmo~uosmo".toList, "0.2".toList)]
      else [])).1
    [({ Denom0 := "uatom".toList, Denom1 := "uosmo".toList }, "0.1".toList),
     ({ Denom0 := "uosmo".toList, Denom1 := "uosmo".toList }, "0.2".toList)] rfl
  ⟨rfl, h _ (List.mem_cons_self _ _),
    h _ (List.mem_cons_of_mem _ (List.mem_cons_self _ _))⟩

/-! ## Properties of the transaction -/

/-- C11: a `RedisTx` built by `NewRedisTx` from a pipeliner is active and
`GetPipeliner` returns that pipeliner, also after `SetTakerFee` staged a command
on it; once `Exec` has returned, with or without an error, `IsActive` is false
and `GetPipeliner`, and so `SetTakerFee`, fails with the "no tx in progress"
error and stages nothing. -/
theorem RedisTx_single_use {Dec : Type} (c : DecCodec Dec) (pipeliner : Pipeliner)
    (store : Store) :
    (NewRedisTx pipeliner).IsActive = true ∧
      (NewRedisTx pipeliner).GetPipeliner = .ok pipeliner ∧
      (∀ d0 d1 f, (SetTakerFee c (NewRedisTx pipeliner) d0 d1 f).2.IsActive = true) ∧
      ∃ err tx' store',
        (NewRedisTx pipeliner).Exec store = some (err, tx', store') ∧
        err = firstError (execCmds store pipeliner.queued).2 ∧
        tx'.IsActive = false ∧
        tx'.GetPipeliner = .error .noTxInProgress ∧
        ∀ d0 d1 f, SetTakerFee c tx' d0 d1 f = (some .noTxInProgress, tx') := by
  refine ⟨rfl, rfl, ?_, ?_⟩
  · intro d0 d1 f
    rw [SetTakerFee_eq]
    rfl
  · exact ⟨_, _, _, rfl, rfl, rfl, rfl, fun _ _ _ => rfl⟩

/-- C12 (the code at the failing input): `Exec` on a transaction that is not in
progress, built with a nil pipeliner or already executed once, calls a method
on the nil pipeliner: it returns no value at all, neither an error nor nil. -/
theorem RedisTx_Exec_not_in_progress :
    (∀ store : Store, RedisTx.Exec { pipeliner := none } store = none) ∧
      ∀ (pipeliner : Pipeliner) (store : Store),
        ∃ err tx' store',
          (NewRedisTx pipeliner).Exec store = some (err, tx', store') ∧
          tx'.IsActive = false ∧ tx'.Exec store' = none :=
  ⟨fun _ => rfl, fun _ _ => ⟨_, _, _, rfl, rfl, rfl⟩⟩

/-! ## Properties of the key namespaces -/

/-- C13: for all strings `d0`, `d1` and `s`, the routes key
`getRoutesPrefixByDenoms(d0, d1)` differs from `takerFeePrefix` followed by `s`
and from the taker-fee hash key itself, and both kinds of key start with the
router prefix. -/
theorem routes_key_ne_takerFee_key (d0 d1 s : GoString) :
    getRoutesPrefixByDenoms d0 d1 ≠ takerFeePrefix ++ s ∧
      getRoutesPrefixByDenoms d0 d1 ≠ takerFeePrefix ∧
      takerFeePrefix = ['r', '~', 't', 'f', '~'] ∧
      (∃ t, getRoutesPrefixByDenoms d0 d1 = routerPrefix ++ t) ∧
      (∃ t, takerFeePrefix ++ s = routerPrefix ++ t) ∧
      routerPrefix = ['r', '~'] := by
  refine ⟨?_, ?_, rfl, ⟨['r'] ++ keySeparator ++ d0 ++ keySeparator ++ d1, ?_⟩,
    ⟨['t', 'f'] ++ keySeparator ++ s, ?_⟩, rfl⟩
  · intro h
    simp [getRoutesPrefixByDenoms, routesPrefix, takerFeePrefix, routerPrefix, keySeparator] at h
  · intro h
    simp [getRoutesPrefixByDenoms, routesPrefix, takerFeePrefix, routerPrefix, keySeparator] at h
  · simp [getRoutesPrefixByDenoms, routesPrefix, routerPrefix, keySeparator]
  · simp [takerFeePrefix, routerPrefix, keySeparator]

/-! ## Properties of the routable CosmWasm pool -/

/-- C14 (the code at the failing input): on a pool that holds 50 of each denom, with
a contract that answers 90 of the token out, `CalculateTokenOutByTokenIn` for
100 of the token in succeeds and returns 90: the amount is not that of the
token in, and the call did not fail although 100 is more than the balance of
either denom. -/
theorem CalculateTokenOutByTokenIn_forwards_response :
    routableCosmWasmPoolImpl.CalculateTokenOutByTokenIn
        ({ ContractAddress := "osmo1contract".toList,
           Balances := [{ Denom := "uusdc".toList, Amount := 50 },
                        { Denom := "uusdt".toList, Amount := 50 }],
           TokenOutDenom := "uusdt".toList,
           TakerFee := "0.000000000000000000".toList,
           SpreadFactor := "0.000000000000000000".toList } :
          routableCosmWasmPoolImpl GoString)
        (fun _ request =>
          (.ok { TokenOut := { Denom := request.TokenOutDenom, Amount := 90 } } :
            Except Unit CalcOutAmtGivenInResponse))
        { Denom := "uusdc".toList, Amount := 100 } =
      .ok { Denom := "uusdt".toList, Amount := 90 } ∧
      (90 : Int) ≠ 100 ∧
      amountOf "uusdc".toList [{ Denom := "uusdc".toList, Amount := 50 },
                               { Denom := "uusdt".toList, Amount := 50 }] < 100 ∧
      amountOf "uusdt".toList [{ Denom := "uusdc".toList, Amount := 50 },
                               { Denom := "uusdt".toList, Amount := 50 }] < 100 :=
  ⟨rfl, by decide, by decide, by decide⟩

/-! ## Collisions of the pricing cache key -/

/-- C15: the denom pairs (ab, c) and (ca, b) are different as unordered pairs and
both have the pricing cache key `cab`; and whenever the larger denoms of two
pairs have the same length, equal keys do mean the same unordered pair. -/
theorem FormatPricingCacheKey_collision :
    (∃ a b c d : GoString,
        ¬ ((a = c ∧ b = d) ∨ (a = d ∧ b = c)) ∧
        FormatPricingCacheKey a b = FormatPricingCacheKey c d ∧
        a = "ab".toList ∧ b = "c".toList ∧ c = "ca".toList ∧ d = "b".toList ∧
        FormatPricingCacheKey a b = "cab".toList) ∧
      ∀ a b c d : GoString, (max a b).length = (max c d).length →
        FormatPricingCacheKey a b = FormatPricingCacheKey c d →
        (a = c ∧ b = d) ∨ (a = d ∧ b = c) := by
  constructor
  · exact ⟨"ab".toList, "c".toList, "ca".toList, "b".toList, by decide, by decide,
      rfl, rfl, rfl, rfl, by decide⟩
  · intro a b c d hlen hkey
    have key : ∀ x y : GoString, FormatPricingCacheKey x y = max x y ++ min x y := by
      intro x y
      unfold FormatPricingCacheKey
      simp only []
      rw [swap_snd_eq_max y x, swap_fst_eq_min y x, max_comm, min_comm]
    rw [key a b, key c d] at hkey
    obtain ⟨hmax, hmin⟩ := List.append_inj hkey hlen
    rcases le_total a b with hab | hab <;> rcases le_total c d with hcd | hcd
    · rw [max_eq_right hab, max_eq_right hcd] at hmax
      rw [min_eq_left hab, min_eq_left hcd] at hmin
      exact Or.inl ⟨hmin, hmax⟩
    · rw [max_eq_right hab, max_eq_left hcd] at hmax
      rw [min_eq_left hab, min_eq_right hcd] at hmin
      exact Or.inr ⟨hmin, hmax⟩
    · rw [max_eq_left hab, max_eq_right hcd] at hmax
      rw [min_eq_right hab, min_eq_left hcd] at hmin
      exact Or.inr ⟨hmax, hmin⟩
    · rw [max_eq_left hab, max_eq_left hcd] at hmax
      rw [min_eq_right hab, min_eq_right hcd] at hmin
      exact Or.inl ⟨hmax, hmin⟩

/-- Witness of C15: the pairs (uosmo, uatom) and (uatom, uosmo), whose larger
denoms have the same length and whose keys are equal. -/
theorem FormatPricingCacheKey_collision_witness :
    ("uosmo".toList = "uatom".toList ∧ "uatom".toList = "uosmo".toList) ∨
      ("uosmo".toList = "uosmo".toList ∧ "uatom".toList = "uatom".toList) :=
  FormatPricingCacheKey_collision.2 "uosmo".toList "uatom".toList "uatom".toList
    "uosmo".toList (by decide) (by decide)

/-! ## Readability of the keys `SetTakerFee` writes -/

/-- A split has one more piece than the string has separators. -/
theorem stringsSplit_length (sep : Char) (s : GoString) :
    (stringsSplit sep s).length = s.count sep + 1 := by
  induction s with
  | nil => rfl
  | cons ch rest ih =>
    by_cases hc : ch = sep
    · subst hc
      simp [stringsSplit, ih]
    · have hne : (ch == sep) = false := by simpa using hc
      rcases hsp : stringsSplit sep rest with _ | ⟨piece, pieces⟩
      · rw [hsp] at ih
        simp at ih
      · rw [hsp] at ih
        simp only [stringsSplit, hc, if_false, hsp, List.length_cons, List.count_cons, hne]
        simpa using ih

/-- A string without the separator is its own single piece. -/
theorem stringsSplit_of_not_mem (sep : Char) (s : GoString) (h : sep ∉ s) :
    stringsSplit sep s = [s] := by
  induction s with
  | nil => rfl
  | cons ch rest ih =>
    have hc : ch ≠ sep := fun e => h (by rw [e]; exact List.mem_cons_self _ _)
    have hr : sep ∉ rest := fun m => h (List.mem_cons_of_mem _ m)
    simp only [stringsSplit, hc, if_false, ih hr]

/-- The first piece of a string that starts with a separator-free part followed
by the separator is that part. -/
theorem stringsSplit_append_sep (sep : Char) (a rest : GoString) (h : sep ∉ a) :
    stringsSplit sep (a ++ sep :: rest) = a :: stringsSplit sep rest := by
  induction a with
  | nil => simp [stringsSplit]
  | cons ch tl ih =>
    have hc : ch ≠ sep := fun e => h (by rw [e]; exact List.mem_cons_self _ _)
    have hr : sep ∉ tl := fun m => h (List.mem_cons_of_mem _ m)
    show stringsSplit sep (ch :: (tl ++ sep :: rest)) = _
    simp only [stringsSplit, hc, if_false, ih hr]

/-- Setting a field keeps every field the hash had. -/
theorem mem_keys_hashSet (field value k : GoString) (h : Hash)
    (hk : k ∈ h.map Prod.fst) : k ∈ (hashSet field value h).map Prod.fst := by
  induction h with
  | nil => simp at hk
  | cons e rest ih =>
    obtain ⟨f, v⟩ := e
    by_cases hf : f = field
    · simp only [hashSet, hf, if_true, List.map_cons, List.mem_cons] at hk ⊢
      exact hk
    · simp only [hashSet, hf, if_false, List.map_cons, List.mem_cons] at hk ⊢
      rcases hk with hk | hk
      · exact Or.inl hk
      · exact Or.inr (ih hk)

/-- The field that was set is a field of the hash. -/
theorem mem_keys_hashSet_self (field value : GoString) (h : Hash) :
    field ∈ (hashSet field value h).map Prod.fst := by
  induction h with
  | nil => simp [hashSet]
  | cons e rest ih =>
    obtain ⟨f, v⟩ := e
    by_cases hf : f = field
    · simp [hashSet, hf]
    · simp only [hashSet, hf, if_false, List.map_cons, List.mem_cons]
      exact Or.inr ih

/-- No command but `FlushAll` removes a field from a hash. -/
theorem mem_keys_execCmds (store : Store) (cmds : List Cmd) (key k : GoString)
    (hflush : Cmd.FlushAll ∉ cmds) (hk : k ∈ (store key).map Prod.fst) :
    k ∈ ((execCmds store cmds).1 key).map Prod.fst := by
  induction cmds generalizing store with
  | nil => exact hk
  | cons cmd rest ih =>
    simp only [execCmds]
    apply ih _ (fun hm => hflush (List.mem_cons_of_mem _ hm))
    cases cmd with
    | HSet key' field value =>
      simp only [execCmd]
      by_cases hkey : key = key'
      · rw [if_pos hkey]
        exact mem_keys_hashSet field value k _ hk
      · rw [if_neg hkey]
        exact hk
    | HGet key' field => exact hk
    | HGetAll key' => exact hk
    | FlushAll => exact absurd (List.mem_cons_self _ _) hflush

/-- The separator is in neither denom exactly when it is in neither the smaller
nor the larger one. -/
theorem not_mem_min_max_iff (ch : Char) (d0 d1 : GoString) :
    (ch ∉ min d0 d1 ∧ ch ∉ max d0 d1) ↔ (ch ∉ d0 ∧ ch ∉ d1) := by
  rcases le_total d0 d1 with h | h
  · rw [min_eq_left h, max_eq_right h]
  · rw [min_eq_right h, max_eq_left h]
    exact And.comm

/-- The number of pieces of the field key of a denom pair. -/
theorem fieldKey_split_length (d0 d1 : GoString) :
    (stringsSplit '~' (min d0 d1 ++ keySeparator ++ max d0 d1)).length =
      (min d0 d1).count '~' + (max d0 d1).count '~' + 2 := by
  rw [stringsSplit_length]
  simp only [keySeparator, List.count_append, List.count_cons_self, List.count_nil]
  omega

/-- An entry of a hash after a field was set is the one set or was there before. -/
theorem mem_hashSet (field value : GoString) (h : Hash) (e : GoString × GoString)
    (he : e ∈ hashSet field value h) : e = (field, value) ∨ e ∈ h := by
  induction h with
  | nil =>
    left
    simpa [hashSet] using he
  | cons x rest ih =>
    obtain ⟨f', v'⟩ := x
    by_cases hf : f' = field
    · simp only [hashSet, hf, if_true, List.mem_cons] at he
      rcases he with he | he
      · exact Or.inl he
      · exact Or.inr (List.mem_cons_of_mem _ he)
    · simp only [hashSet, hf, if_false, List.mem_cons] at he
      rcases he with he | he
      · exact Or.inr (by rw [he]; exact List.mem_cons_self _ _)
      · rcases ih he with h' | h'
        · exact Or.inl h'
        · exact Or.inr (List.mem_cons_of_mem _ h')

/-- The entry that was set is an entry of the hash. -/
theorem mem_hashSet_self (field value : GoString) (h : Hash) :
    (field, value) ∈ hashSet field value h := by
  induction h with
  | nil => simp [hashSet]
  | cons x rest ih =>
    obtain ⟨f', v'⟩ := x
    by_cases hf : f' = field
    · simp [hashSet, hf]
    · simp only [hashSet, hf, if_false, List.mem_cons]
      exact Or.inr ih

/-- The loop of `GetAllTakerFees` returns a map exactly when every entry it visits
passes its three checks. -/
theorem parseTakerFeeMap_ok_iff {Dec : Type} (c : DecCodec Dec) (entries : Hash)
    (m0 : TakerFeeMap Dec) :
    (∃ m, parseTakerFeeMap c entries m0 = .ok m) ↔ ∀ e ∈ entries, entryAccepted c e := by
  induction entries generalizing m0 with
  | nil => simp [parseTakerFeeMap]
  | cons e rest ih =>
    obtain ⟨k, v⟩ := e
    simp only [List.mem_cons, forall_eq_or_imp]
    cases hp : c.NewDecFromStr v with
    | none =>
      simp only [parseTakerFeeMap, hp, entryAccepted]
      simp
    | some fee =>
      rcases hsp : stringsSplit '~' k with _ | ⟨a, _ | ⟨b, _ | ⟨x, t⟩⟩⟩
      · simp only [parseTakerFeeMap, hp, hsp, entryAccepted]
        simp
      · simp only [parseTakerFeeMap, hp, hsp, entryAccepted]
        simp
      · by_cases hlt : b < a
        · simp only [parseTakerFeeMap, hp, hsp, entryAccepted, gt_iff_lt, if_pos hlt]
          simp only [reduceCtorEq, exists_false, false_iff, not_and]
          intro hacc
          obtain ⟨_, a', b', hab, hn⟩ := hacc
          simp only [List.cons.injEq, and_true] at hab
          obtain ⟨ha, hb⟩ := hab
          subst ha hb
          exact absurd hlt hn
        · simp only [parseTakerFeeMap, hp, hsp, gt_iff_lt, if_neg hlt]
          rw [ih]
          constructor
          · intro hall
            exact ⟨⟨⟨fee, hp⟩, a, b, hsp, hlt⟩, hall⟩
          · intro hall
            exact hall.2
      · simp only [parseTakerFeeMap, hp, hsp, entryAccepted]
        simp

/-- The denom pair of an assignment is a key of the map afterwards, and so is
every key the map had. -/
theorem TakerFeeMap.mem_keys_set {Dec : Type} (k : DenomPair) (v : Dec) (m : TakerFeeMap Dec) :
    k ∈ (TakerFeeMap.set k v m).map Prod.fst ∧
      ∀ k' ∈ m.map Prod.fst, k' ∈ (TakerFeeMap.set k v m).map Prod.fst := by
  induction m with
  | nil => simp [TakerFeeMap.set]
  | cons e rest ih =>
    obtain ⟨k0, v0⟩ := e
    by_cases hk : k0 = k
    · simp only [TakerFeeMap.set, hk, if_true, List.map_cons, List.mem_cons]
      exact ⟨Or.inl trivial, fun k' hk' => hk'⟩
    · simp only [TakerFeeMap.set, hk, if_false, List.map_cons, List.mem_cons]
      refine ⟨Or.inr ih.1, fun k' hk' => ?_⟩
      rcases hk' with hk' | hk'
      · exact Or.inl hk'
      · exact Or.inr (ih.2 k' hk')

/-- The map the loop of `GetAllTakerFees` returns has the denom pair of every entry
visited among its keys, and every key the map had to start with. -/
theorem parseTakerFeeMap_keys {Dec : Type} (c : DecCodec Dec) (entries : Hash)
    (m0 m : TakerFeeMap Dec) (h : parseTakerFeeMap c entries m0 = .ok m) :
    (∀ k ∈ m0.map Prod.fst, k ∈ m.map Prod.fst) ∧
      ∀ e ∈ entries, ∀ a b, stringsSplit '~' e.1 = [a, b] →
        ({ Denom0 := a, Denom1 := b } : DenomPair) ∈ m.map Prod.fst := by
  induction entries generalizing m0 with
  | nil =>
    simp only [parseTakerFeeMap, Except.ok.injEq] at h
    subst h
    exact ⟨fun k hk => hk, fun e he => by simp at he⟩
  | cons e rest ih =>
    obtain ⟨k, v⟩ := e
    cases hp : c.NewDecFromStr v with
    | none => simp [parseTakerFeeMap, hp] at h
    | some fee =>
      rcases hsp : stringsSplit '~' k with _ | ⟨a, _ | ⟨b, _ | ⟨x, t⟩⟩⟩
      · simp [parseTakerFeeMap, hp, hsp] at h
      · simp [parseTakerFeeMap, hp, hsp] at h
      · by_cases hlt : b < a
        · simp [parseTakerFeeMap, hp, hsp, hlt] at h
        · simp only [parseTakerFeeMap, hp, hsp, gt_iff_lt, if_neg hlt] at h
          obtain ⟨hkeep, hnew⟩ := ih _ h
          have hset := TakerFeeMap.mem_keys_set { Denom0 := a, Denom1 := b } fee m0
          refine ⟨fun k' hk' => hkeep k' (hset.2 k' hk'), ?_⟩
          intro e he a' b' hab
          rcases List.mem_cons.mp he with heq | hin
          · subst heq
            simp only at hab
            rw [hsp] at hab
            simp only [List.cons.injEq, and_true] at hab
            obtain ⟨ha, hb⟩ := hab
            subst ha hb
            exact hkeep _ hset.1
          · exact hnew e hin a' b' hab
      · simp [parseTakerFeeMap, hp, hsp] at h

/-- C16 (as stated, refuted): after a fee is set for (ibc~x, uosmo) and the
transaction is executed, `GetAllTakerFees` fails; after `ClearAll` on a new
transaction and its execution, a later `GetAllTakerFees` call succeeds with
the empty map. -/
theorem SetTakerFee_separator_ClearAll_counterexample :
    ∃ store1 tx2 store2,
      (SetTakerFee textDecCodec StartTx "ibc~x".toList "uosmo".toList
          "0.001000000000000000".toList).2.Exec (fun _ => []) =
        some (none, { pipeliner := none }, store1) ∧
      GetAllTakerFees textDecCodec id store1 =
        .error (.invalidDenomPairCount "ibc~x~uosmo".toList 3) ∧
      StartTx.ClearAll = some (none, tx2) ∧
      tx2.Exec store1 = some (none, { pipeliner := none }, store2) ∧
      GetAllTakerFees textDecCodec id store2 = .ok [] :=
  ⟨_, _, _, rfl, rfl, rfl, rfl, rfl⟩

/-- C16 (amended): for a valid fee and a taker-fee hash that `GetAllTakerFees` reads
before the write, `GetAllTakerFees` reads the hash after `SetTakerFee` for
`(d0, d1)` and the execution of the transaction if and only if neither denom
contains `~`; the key then splits into the smaller and the larger denom, and
that `DenomPair` is a key of the map returned.  A fee set for a denom that
contains `~` makes every later `GetAllTakerFees` call fail, whatever is
staged and executed in between, until the store is wiped by `ClearAll`. -/
theorem SetTakerFee_key_readable_iff {Dec : Type} (c : DecCodec Dec)
    (rangeOrder : Hash → Hash) (hrange : ∀ h, (rangeOrder h).Perm h) (store : Store)
    (pipeliner : Pipeliner) (d0 d1 : GoString) (f : Dec)
    (hvalid : c.NewDecFromStr (c.String f) = some f) (m0 : TakerFeeMap Dec)
    (hread : GetAllTakerFees c rangeOrder (execCmds store pipeliner.queued).1 = .ok m0) :
    SetTakerFee c (NewRedisTx pipeliner) d0 d1 f =
        (none, NewRedisTx
          { queued := pipeliner.queued ++
              [Cmd.HSet takerFeePrefix (min d0 d1 ++ keySeparator ++ max d0 d1) (c.String f)] }) ∧
      ∃ err store', (SetTakerFee c (NewRedisTx pipeliner) d0 d1 f).2.Exec store =
          some (err, { pipeliner := none }, store') ∧
        ((∃ m, GetAllTakerFees c rangeOrder store' = .ok m) ↔ ('~' ∉ d0 ∧ '~' ∉ d1)) ∧
        ('~' ∉ d0 → '~' ∉ d1 →
          stringsSplit '~' (min d0 d1 ++ keySeparator ++ max d0 d1) = [min d0 d1, max d0 d1] ∧
          ∀ m, GetAllTakerFees c rangeOrder store' = .ok m →
            ({ Denom0 := min d0 d1, Denom1 := max d0 d1 } : DenomPair) ∈ m.map Prod.fst) ∧
        (('~' ∈ d0 ∨ '~' ∈ d1) →
          ∀ later : List Cmd, Cmd.FlushAll ∉ later →
            ∃ e, GetAllTakerFees c rangeOrder (execCmds store' later).1 = .error e) := by
  have hsplit : '~' ∉ d0 → '~' ∉ d1 →
      stringsSplit '~' (min d0 d1 ++ keySeparator ++ max d0 d1) = [min d0 d1, max d0 d1] := by
    intro h0 h1
    obtain ⟨hmin, hmax⟩ := (not_mem_min_max_iff '~' d0 d1).mpr ⟨h0, h1⟩
    simp only [keySeparator, List.append_assoc, List.singleton_append]
    rw [stringsSplit_append_sep '~' _ _ hmin, stringsSplit_of_not_mem '~' _ hmax]
  have hfree : (stringsSplit '~' (min d0 d1 ++ keySeparator ++ max d0 d1)).length = 2 →
      '~' ∉ d0 ∧ '~' ∉ d1 := by
    intro hlen
    rw [fieldKey_split_length] at hlen
    apply (not_mem_min_max_iff '~' d0 d1).mp
    exact ⟨List.count_eq_zero.mp (by omega), List.count_eq_zero.mp (by omega)⟩
  refine ⟨SetTakerFee_eq c pipeliner d0 d1 f, ?_⟩
  rw [SetTakerFee_eq]
  refine ⟨_, _, rfl, ?_⟩
  have hstore : (Pipeliner.Exec
      { queued := pipeliner.queued ++
          [Cmd.HSet takerFeePrefix (min d0 d1 ++ keySeparator ++ max d0 d1) (c.String f)] }
      store).1 takerFeePrefix =
      hashSet (min d0 d1 ++ keySeparator ++ max d0 d1) (c.String f)
        ((execCmds store pipeliner.queued).1 takerFeePrefix) := by
    simp only [Pipeliner.Exec, execCmds_append_singleton, execCmd, if_true]
  generalize (Pipeliner.Exec
      { queued := pipeliner.queued ++
          [Cmd.HSet takerFeePrefix (min d0 d1 ++ keySeparator ++ max d0 d1) (c.String f)] }
      store).1 = store' at hstore
  have hbefore : ∀ e ∈ (execCmds store pipeliner.queued).1 takerFeePrefix,
      entryAccepted c e := by
    rw [GetAllTakerFees_eq] at hread
    have := (parseTakerFeeMap_ok_iff c _ []).mp ⟨m0, hread⟩
    intro e he
    exact this e ((hrange _).mem_iff.mpr he)
  have hiff : (∃ m, GetAllTakerFees c rangeOrder store' = .ok m) ↔ ('~' ∉ d0 ∧ '~' ∉ d1) := by
    rw [GetAllTakerFees_eq, parseTakerFeeMap_ok_iff]
    constructor
    · intro hall
      have hacc := hall _ ((hrange _).mem_iff.mpr (by
        rw [hstore]
        exact mem_hashSet_self _ _ _))
      obtain ⟨_, a, b, hab, _⟩ := hacc
      exact hfree (by rw [hab]; rfl)
    · rintro ⟨h0, h1⟩ e he
      have he' := (hrange _).mem_iff.mp he
      rw [hstore] at he'
      rcases mem_hashSet _ _ _ e he' with heq | hin
      · rw [heq]
        exact ⟨⟨f, hvalid⟩, _, _, hsplit h0 h1, not_lt.mpr min_le_max⟩
      · exact hbefore e hin
  refine ⟨hiff, ?_, ?_⟩
  · intro h0 h1
    refine ⟨hsplit h0 h1, ?_⟩
    intro m hm
    rw [GetAllTakerFees_eq] at hm
    exact (parseTakerFeeMap_keys c _ [] m hm).2
      (min d0 d1 ++ keySeparator ++ max d0 d1, c.String f)
      ((hrange _).mem_iff.mpr (by rw [hstore]; exact mem_hashSet_self _ _ _))
      _ _ (hsplit h0 h1)
  · intro hmem later hflush
    have hbad : (stringsSplit '~' (min d0 d1 ++ keySeparator ++ max d0 d1)).length ≠ 2 := by
      intro hlen
      obtain ⟨h0, h1⟩ := hfree hlen
      rcases hmem with hm | hm
      · exact h0 hm
      · exact h1 hm
    have hkey : (min d0 d1 ++ keySeparator ++ max d0 d1) ∈
        ((execCmds store' later).1 takerFeePrefix).map Prod.fst := by
      apply mem_keys_execCmds _ _ _ _ hflush
      rw [hstore]
      exact mem_keys_hashSet_self _ _ _
    obtain ⟨⟨k, v⟩, hin, hk⟩ := List.mem_map.mp hkey
    simp only at hk
    rw [hk] at hin
    rw [GetAllTakerFees_eq]
    exact parseTakerFeeMap_corrupted c _ [] _ v ((hrange _).mem_iff.mpr hin) (Or.inl hbad)

/-- Witness of C16 (amended): over an empty store, the fee set for (uosmo, uatom)
on a fresh transaction is read by `GetAllTakerFees` after the execution, and
the fee set for (ibc~x, uosmo) makes `GetAllTakerFees` fail. -/
theorem SetTakerFee_key_readable_iff_witness :
    (∃ err store',
        (SetTakerFee textDecCodec (NewRedisTx { queued := [] }) "uosmo".toList "uatom".toList
            "0.001000000000000000".toList).2.Exec (fun _ => []) =
          some (err, { pipeliner := none }, store') ∧
        ∃ m, GetAllTakerFees textDecCodec id store' = .ok m) ∧
      ∃ err store',
        (SetTakerFee textDecCodec (NewRedisTx { queued := [] }) "ibc~x".toList "uosmo".toList
            "0.001000000000000000".toList).2.Exec (fun _ => []) =
          some (err, { pipeliner := none }, store') ∧
        ∃ e, GetAllTakerFees textDecCodec id store' = .error e :=
  ⟨match (SetTakerFee_key_readable_iff textDecCodec id (fun h => List.Perm.refl h)
      (fun _ => []) { queued := [] } "uosmo".toList "uatom".toList
      "0.001000000000000000".toList (by decide) [] rfl).2 with
   | ⟨err, store', hexec, hiff, _, _⟩ =>
     ⟨err, store', hexec, hiff.mpr ⟨by decide, by decide⟩⟩,
   match (SetTakerFee_key_readable_iff textDecCodec id (fun h => List.Perm.refl h)
      (fun _ => []) { queued := [] } "ibc~x".toList "uosmo".toList
      "0.001000000000000000".toList (by decide) [] rfl).2 with
   | ⟨err, store', hexec, _, _, hfail⟩ =>
     ⟨err, store', hexec, hfail (Or.inl (by decide)) [] (by decide)⟩⟩

end Sqs
